import Mathlib

/-!
Verification of the ocestrater orchestration kernel.

Shallow embedding of the Rust sources under `src-tauri/src/`:
`agent.rs` (argv normalization), `trust.rs` (content hashing),
`git_ops.rs` (unified-diff parsing, status aggregation, worktree lookup),
`workspace.rs` (workspace lifecycle) and `config.rs` (agent resolution).

Strings are modelled at character granularity (Rust byte indices obtained
from `find`/`len` always fall on character boundaries in the code under
study, so the two views agree).  Rust operations that can panic
(`unwrap`, slice indexing) are embedded in an `Option` panic channel:
`none` means the Rust code would panic.
-/

namespace Ocestrater

/-! ## String primitives (Rust `str` operations) -/

/-- Rust `str::starts_with` (string pattern). -/
def strStarts (s p : String) : Bool := List.isPrefixOf p.toList s.toList

/-- `sub` occurs (contiguously) in `l`. -/
def containsSubAux (sub : List Char) : List Char → Bool
  | [] => sub.isEmpty
  | c :: cs => List.isPrefixOf sub (c :: cs) || containsSubAux sub cs

/-- Rust `str::contains` (substring pattern). -/
def strContains (s sub : String) : Bool := containsSubAux sub.toList s.toList

/-- Rust `str::strip_prefix`: `some` remainder when `p` is a prefix. -/
def dropPre (p s : String) : Option String :=
  if strStarts s p then some (String.mk (s.toList.drop p.toList.length)) else none

/-- Rust `str::ends_with` (string pattern). -/
def strEnds (s p : String) : Bool := List.isSuffixOf p.toList s.toList

def findSubAux (sub : List Char) : List Char → Nat → Option Nat
  | [], i => if List.isPrefixOf sub [] then some i else none
  | c :: cs, i =>
    if List.isPrefixOf sub (c :: cs) then some i else findSubAux sub cs (i + 1)

/-- Rust `str::find` with a string pattern (index of first occurrence). -/
def findSub (s sub : String) : Option Nat := findSubAux sub.toList s.toList 0

/-- Rust slice `&s[..i]`; `none` models the out-of-range panic. -/
def sliceTo (s : String) (i : Nat) : Option String :=
  if i ≤ s.toList.length then some (String.mk (s.toList.take i)) else none

/-- Rust slice `&s[i..]`; `none` models the out-of-range panic. -/
def sliceFrom (s : String) (i : Nat) : Option String :=
  if i ≤ s.toList.length then some (String.mk (s.toList.drop i)) else none

/-- Rust `str::parse::<u32>()`: optional `+` sign, at least one ASCII digit,
    value below `2^32`. -/
def parseU32 (s : String) : Option Nat :=
  let cs := match s.toList with
    | '+' :: rest => rest
    | cs => cs
  if cs.isEmpty then none
  else if cs.all Char.isDigit then
    let n := cs.foldl (fun a c => a * 10 + (c.toNat - 48)) 0
    if n < 4294967296 then some n else none
  else none

/-- Rust `str::split_once` with a string separator. -/
def splitOnce (s sep : String) : Option (String × String) :=
  match findSub s sep with
  | some i =>
    some (String.mk (s.toList.take i), String.mk (s.toList.drop (i + sep.toList.length)))
  | none => none

/-- Split a character list at every character satisfying `p` (possibly empty
pieces, like Rust `str::split`). -/
def splitOnPred (p : Char → Bool) : List Char → List (List Char)
  | [] => [[]]
  | x :: xs =>
    if p x then [] :: splitOnPred p xs
    else
      match splitOnPred p xs with
      | [] => [[x]]
      | g :: gs => (x :: g) :: gs

/-- Rust `str::split` with a single-character pattern. -/
def strSplitOnChar (c : Char) (s : String) : List String :=
  (splitOnPred (fun x => x == c) s.toList).map String.mk

/-- Rust `str::trim`. -/
def rustTrim (s : String) : String :=
  String.mk
    (((s.toList.dropWhile Char.isWhitespace).reverse.dropWhile
      Char.isWhitespace).reverse)

/-- Rust `str::split_whitespace` (no empty pieces). -/
def rustSplitWhitespace (s : String) : List String :=
  ((splitOnPred Char.isWhitespace s.toList).map String.mk).filter
    fun p => !(p == "")

/-- Rust `str::splitn(2, c)`. -/
def rustSplitN2 (s : String) (c : Char) : List String :=
  match findSub s (String.mk [c]) with
  | some i => [String.mk (s.toList.take i), String.mk (s.toList.drop (i + 1))]
  | none => [s]

/-- Strip one trailing `'\r'`. -/
def stripCR (l : String) : String :=
  if strEnds l "\r" then String.mk (l.toList.dropLast) else l

/-- Rust `str::lines`: split at `'\n'`; a piece that was terminated by the
    `'\n'` also loses one trailing `'\r'`; the final unterminated piece is
    kept as is, and a trailing newline produces no final empty line. -/
def rustLines (s : String) : List String :=
  let pieces := strSplitOnChar '\n' s
  if pieces.getLast? = some "" then pieces.dropLast.map stripCR
  else
    pieces.dropLast.map stripCR ++
      match pieces.getLast? with
      | some l => [l]
      | none => []

/-! ## Agent adapter (`agent.rs`)

`AgentConfig` mirrors `config::AgentConfig`; the environment map is modelled
as a partial function.  `buildCommand` embeds `AgentAdapter::build_command`
(self.name is passed explicitly). -/

structure AgentConfig where
  command : String
  args : List String
  env : String → Option String
  models : List String
  default_model : Option String
  model_flag : Option String

/-- The model-injection stage of `build_command` (agent.rs lines 16-22). -/
def injectModel (config : AgentConfig) (model : Option String) : List String :=
  match model, config.model_flag with
  | some m, some flag => config.args ++ [flag, m]
  | _, _ => config.args

/-- The per-agent adaptation stage of `build_command`
(agent.rs lines 24-45, the `match self.name.as_str()`). -/
def perAgentNormalize (name : String) (args : List String) : List String :=
  if name == "claude" then
    if !(args.any fun a => strContains a "dangerously") then
      args ++ ["--dangerously-skip-permissions"]
    else args
  else if name == "codex" then
    if args.isEmpty then args ++ ["exec", "--full-auto"] else args
  else if name == "gemini" then
    if !(args.any fun a => a == "--yolo" || a == "-y") then args ++ ["--yolo"]
    else args
  else args

/-- `AgentAdapter::build_command` (agent.rs lines 15-48): model injection,
then the per-agent adaptation. -/
def buildCommand (name : String) (config : AgentConfig) (model : Option String) :
    String × List String :=
  (config.command, perAgentNormalize name (injectModel config model))

/-! ## Trust engine hashing (`trust.rs`)

The filesystem is abstracted to a partial map from path to file bytes
(`none` = the file is missing or unreadable), and `sha256_hex` of the
external `sha2` crate to an abstract hash function on byte lists. -/

/-- `compute_config_hash` (trust.rs lines 97-104). -/
def computeConfigHash (hash : List Nat → String) (fs : String → Option (List Nat))
    (repoPath : String) : Option String :=
  match fs (repoPath ++ "/.ocestrater/config.json") with
  | none => none
  | some content => if content.isEmpty then none else some (hash content)

/-- `compute_snippets_hash` (trust.rs lines 116-120). -/
def computeSnippetsHash (hash : List Nat → String) (fs : String → Option (List Nat))
    (repoPath : String) : Option String :=
  match fs (repoPath ++ "/.ocestrater/snippets.json") with
  | none => none
  | some content => some (hash content)

/-! ## Worktree lookup (`git_ops.rs::find_worktree_path`) -/

/-- The loop of `find_worktree_path` (git_ops.rs lines 741-753), with the
`current_path` register made explicit. -/
def findWorktreeLines (branch : String) : List String → Option String → Option String
  | [], _ => none
  | l :: rest, cur =>
    match dropPre "worktree " l with
    | some path => findWorktreeLines branch rest (some path)
    | none =>
      if strStarts l "branch " && strContains l branch then cur
      else if l == "" then findWorktreeLines branch rest none
      else findWorktreeLines branch rest cur

/-- `find_worktree_path` (git_ops.rs lines 741-753). -/
def findWorktreePath (porcelain branch : String) : Option String :=
  findWorktreeLines branch (rustLines porcelain) none

/-- The "retain the most recent `worktree <path>` line, reset on blank lines"
register of the spec's state machine, computed over a list of lines. -/
def retainedWorktree (init : Option String) (pre : List String) : Option String :=
  pre.foldl
    (fun cur l =>
      match dropPre "worktree " l with
      | some p => some p
      | none => if l == "" then none else cur)
    init

/-! ## Configuration resolution (`config.rs`)

Hash maps are modelled as partial functions; the override environment map,
which the code iterates over (`env.extend`), as an entry list whose later
entries win (insertion order of the map). -/

structure AgentOverride where
  args : List String
  env : List (String × String)

structure RepoConfig where
  version : Nat
  setup_script : Option String
  default_agent : Option String
  default_branch : Option String
  worktree_dir : String
  snippets : String → Option String
  agent_overrides : String → Option AgentOverride

structure ConfigStore where
  agents : String → Option AgentConfig
  repo_configs : String → Option RepoConfig

/-- `HashMap::extend`: insert every entry of `ov` into `base`. -/
def envExtend (base : String → Option String) (ov : List (String × String)) :
    String → Option String :=
  ov.foldl (fun acc p => fun k => if p.1 == k then some p.2 else acc k) base

/-- Last-wins lookup in an entry list (the value a `HashMap` built from the
list by repeated insertion would hold). -/
def lookupLast (ov : List (String × String)) (k : String) : Option String :=
  ov.foldl (fun acc p => if p.1 == k then some p.2 else acc) none

/-- `ConfigStore::resolve_agent` (config.rs lines 208-232). -/
def resolveAgent (store : ConfigStore) (repoPath agentName : String) :
    Option AgentConfig :=
  match store.agents agentName with
  | none => none
  | some base =>
    match store.repo_configs repoPath with
    | some repoCfg =>
      match repoCfg.agent_overrides agentName with
      | some ov =>
        some { command := base.command
               args := if ov.args.isEmpty then base.args else ov.args
               env := envExtend base.env ov.env
               models := base.models
               default_model := base.default_model
               model_flag := base.model_flag }
      | none => some base
    | none => some base

/-! ## Workspace lifecycle (`workspace.rs`)

`WorkspaceManager::create` is embedded as a pure function over a `CreateEnv`
recording the outcome of each filesystem / subprocess effect, in program
order.  The result's outer `Option` is the panic channel. -/

inductive WorkspaceState
  | creating
  | running
  | stopping
  | stopped
  | cleaning
deriving DecidableEq, Repr

structure WorkspaceInfo where
  id : String
  repo_path : String
  repo_alias : String
  branch : String
  worktree_path : String
  agent : String
  state : WorkspaceState
deriving DecidableEq, Repr

/-- Outcomes of the effects performed by one `create` call. -/
structure CreateEnv where
  /-- `fs::canonicalize(repo_path)` -/
  canonicalRepo : Option String
  /-- `<canonical repo>/.git` exists -/
  gitDirExists : Bool
  /-- `Uuid::new_v4().to_string()` -/
  uuid : String
  /-- `fs::create_dir_all(parent)` succeeded -/
  mkdirOk : Bool
  /-- `fs::canonicalize(worktree_path.parent())` -/
  canonicalParent : Option String
  /-- `git worktree add` outcome: `none` = the process could not be spawned,
      `some b` = it ran and `b` is `status.success()` -/
  gitWorktreeAdd : Option Bool
deriving Repr

def Registry := String → Option WorkspaceInfo

def regInsert (reg : Registry) (k : String) (v : WorkspaceInfo) : Registry :=
  fun x => if x == k then some v else reg x

def regRemove (reg : Registry) (k : String) : Registry :=
  fun x => if x == k then none else reg x

def pathJoin (a b : String) : String := a ++ "/" ++ b

/-- `Path::starts_with` (component-wise prefix). -/
def pathStartsWithComponents (p base : String) : Bool :=
  List.isPrefixOf (strSplitOnChar '/' base) (strSplitOnChar '/' p)

/-- `WorkspaceManager::create` (workspace.rs lines 38-116). -/
def wmCreate (env : CreateEnv) (reg : Registry)
    (repoAlias branch agent _worktreeDir : String) :
    Option (Except String WorkspaceInfo × Registry) :=
  match env.canonicalRepo with
  | none => some (.error "invalid repo path", reg)
  | some canonRepo =>
    if !env.gitDirExists then some (.error "not a git repository", reg)
    else
      match sliceTo env.uuid 8 with
      | none => none
      | some shortId =>
        let worktreeName := branch ++ "-" ++ shortId
        if !env.mkdirOk then some (.error "mkdir error", reg)
        else
          match env.canonicalParent with
          | none => some (.error "invalid worktree path", reg)
          | some cp =>
            let canonicalWt := pathJoin cp worktreeName
            if !(pathStartsWithComponents canonicalWt canonRepo) then
              some (.error "worktree path escapes repository directory", reg)
            else
              let ws : WorkspaceInfo :=
                ⟨env.uuid, canonRepo, repoAlias, branch, canonicalWt, agent,
                  .creating⟩
              let reg1 := regInsert reg env.uuid ws
              match env.gitWorktreeAdd with
              | none => some (.error "git worktree error", reg1)
              | some false =>
                some (.error "git worktree add failed", regRemove reg1 env.uuid)
              | some true =>
                let reg2 :=
                  match reg1 env.uuid with
                  | some w => regInsert reg1 env.uuid { w with state := .running }
                  | none => reg1
                match reg2 env.uuid with
                | some w => some (.ok w, reg2)
                | none => none

/-! ## Unified diff parser (`git_ops.rs`)

The index-based loops of `parse_unified_diff` (git_ops.rs lines 192-368) are
embedded as a one-line-at-a-time state machine over the line list: `PMode`
records which inner loop the index currently sits in, and re-dispatching the
same line models the loops' `break`-then-reprocess control flow.  The outer
`Option` is the panic channel. -/

inductive FileStatus
  | added
  | modified
  | deleted
  | renamed
  | copied
deriving DecidableEq, Repr

structure DiffLine where
  kind : String
  old_lineno : Option Nat
  new_lineno : Option Nat
  content : String
deriving DecidableEq, Repr

structure DiffHunk where
  old_start : Nat
  old_count : Nat
  new_start : Nat
  new_count : Nat
  header : String
  lines : List DiffLine
deriving DecidableEq, Repr

structure FileDiff where
  path : String
  old_path : Option String
  status : FileStatus
  binary : Bool
  hunks : List DiffHunk
  additions : Nat
  deletions : Nat
deriving DecidableEq, Repr

/-- `parse_range` (git_ops.rs lines 181-190). -/
def parseRange (range : String) : Nat × Nat :=
  match splitOnce range "," with
  | some (start, count) => ((parseU32 start).getD 0, (parseU32 count).getD 0)
  | none => ((parseU32 range).getD 0, 1)

/-- `parse_hunk_header` (git_ops.rs lines 161-179); the inner `Option` is the
function's own return value, the outer one the panic channel. -/
def parseHunkHeader (header : String) : Option (Option (Nat × Nat × Nat × Nat)) :=
  match dropPre "@@ " header with
  | none => some none
  | some rest =>
    match findSub rest " @@" with
    | none => some none
    | some atEnd =>
      match sliceTo rest atEnd with
      | none => none
      | some rangePart =>
        let parts := rustSplitWhitespace rangePart
        if parts.length < 2 then some none
        else
          match parts.get? 0, parts.get? 1 with
          | some p0, some p1 =>
            match dropPre "-" p0, dropPre "+" p1 with
            | some oldRange, some newRange =>
              let (oldStart, oldCount) := parseRange oldRange
              let (newStart, newCount) := parseRange newRange
              some (some (oldStart, oldCount, newStart, newCount))
            | _, _ => some none
          | _, _ => none

/-- `parse_diff_git_header` (git_ops.rs lines 370-394). -/
def parseDiffGitHeader (header : String) : Option (String × String) :=
  let rest := (dropPre "diff --git " header).getD header
  match dropPre "a/" rest with
  | some aRest =>
    match findSub aRest " b/" with
    | some bIdx =>
      match sliceTo aRest bIdx, sliceFrom aRest (bIdx + 3) with
      | some old, some nw => some (old, nw)
      | _, _ => none
    | none => parseDiffGitFallback rest
  | none => parseDiffGitFallback rest
where
  /-- The whitespace-split fallback (git_ops.rs lines 385-393). -/
  parseDiffGitFallback (rest : String) : Option (String × String) :=
    let parts := rustSplitN2 rest ' '
    if parts.length = 2 then
      match parts.get? 0, parts.get? 1 with
      | some p0, some p1 =>
        some ((dropPre "a/" p0).getD p0, (dropPre "b/" p1).getD p1)
      | _, _ => none
    else some ("", "")

/-- The in-progress hunk of the inner hunk loop (git_ops.rs lines 263-333). -/
structure HunkCtx where
  old_start : Nat
  old_count : Nat
  new_start : Nat
  new_count : Nat
  header : String
  lines : List DiffLine
  old_lineno : Nat
  new_lineno : Nat
deriving Repr

/-- The in-progress file of the per-file loop (git_ops.rs lines 210-337). -/
structure FileCtx where
  oldRaw : String
  newRaw : String
  status : FileStatus
  old_path : Option String
  binary : Bool
  hunks : List DiffHunk
deriving Repr

/-- Which inner loop the parser is in. -/
inductive PMode
  /-- extended-header handling -/
  | hdr
  /-- skipping a `GIT binary patch` section -/
  | skipBin
  /-- just consumed a `--- ` line, a following `+++ ` line is skipped -/
  | afterDash
  /-- inside a hunk body -/
  | inHunk (h : HunkCtx)

structure PState where
  files : List FileDiff
  cur : Option (FileCtx × PMode)

/-- Push the finished hunk (git_ops.rs lines 326-333). -/
def closeHunk (f : FileCtx) (h : HunkCtx) : FileCtx :=
  { f with hunks := f.hunks ++
      [⟨h.old_start, h.old_count, h.new_start, h.new_count, h.header, h.lines⟩] }

def closeMode (f : FileCtx) (m : PMode) : FileCtx :=
  match m with
  | .inHunk h => closeHunk f h
  | _ => f

/-- The per-file addition counter (git_ops.rs lines 339-348). -/
def countAdds (hs : List DiffHunk) : Nat :=
  hs.foldl
    (fun acc h => h.lines.foldl (fun a ln => if ln.kind = "add" then a + 1 else a) acc)
    0

/-- The per-file deletion counter (git_ops.rs lines 339-348). -/
def countDels (hs : List DiffHunk) : Nat :=
  hs.foldl
    (fun acc h =>
      h.lines.foldl (fun a ln => if ln.kind = "delete" then a + 1 else a) acc)
    0

/-- Assemble the `FileDiff` (git_ops.rs lines 339-364). -/
def finalizeFile (f : FileCtx) : FileDiff :=
  let old_path :=
    if f.status = .renamed ∧ f.old_path = none then some f.oldRaw else f.old_path
  ⟨f.newRaw, old_path, f.status, f.binary, f.hunks, countAdds f.hunks,
    countDels f.hunks⟩

/-- One step of the extended-header if/else chain
(git_ops.rs lines 216-336), for a line not starting with `diff --git `. -/
def hdrStep (f : FileCtx) (l : String) : Option (FileCtx × PMode) :=
  if strStarts l "new file mode" then some ({ f with status := .added }, .hdr)
  else if strStarts l "deleted file mode" then
    some ({ f with status := .deleted }, .hdr)
  else if strStarts l "rename from " then
    match dropPre "rename from " l with
    | some r => some ({ f with old_path := some r, status := .renamed }, .hdr)
    | none => none
  else if strStarts l "rename to " then some (f, .hdr)
  else if strStarts l "copy from " then
    match dropPre "copy from " l with
    | some r => some ({ f with old_path := some r, status := .copied }, .hdr)
    | none => none
  else if strStarts l "copy to " then some (f, .hdr)
  else if strStarts l "similarity index" || strStarts l "dissimilarity index"
      || strStarts l "index " || strStarts l "old mode"
      || strStarts l "new mode" then some (f, .hdr)
  else if l == "Binary files differ" || strStarts l "Binary files "
      || strContains l "Binary files" then some ({ f with binary := true }, .hdr)
  else if strStarts l "GIT binary patch" then
    some ({ f with binary := true }, .skipBin)
  else if strStarts l "--- " then some (f, .afterDash)
  else if strStarts l "@@ " then
    match parseHunkHeader l with
    | none => none
    | some parsed =>
      let (os, oc, ns, nc) := parsed.getD (0, 0, 0, 0)
      some (f, .inHunk ⟨os, oc, ns, nc, l, [], os, ns⟩)
  else some (f, .hdr)

/-- One step of the hunk-body loop (git_ops.rs lines 276-324), for a line not
starting with `diff --git `. -/
def hunkStep (f : FileCtx) (h : HunkCtx) (l : String) : Option (FileCtx × PMode) :=
  if strStarts l "@@ " then hdrStep (closeHunk f h) l
  else
    match dropPre "+" l with
    | some content =>
      some (f, .inHunk { h with
        lines := h.lines ++ [⟨"add", none, some h.new_lineno, content⟩],
        new_lineno := h.new_lineno + 1 })
    | none =>
      match dropPre "-" l with
      | some content =>
        some (f, .inHunk { h with
          lines := h.lines ++ [⟨"delete", some h.old_lineno, none, content⟩],
          old_lineno := h.old_lineno + 1 })
      | none =>
        if strStarts l " " || l == "" then
          match (if l == "" then some "" else sliceFrom l 1) with
          | some content =>
            some (f, .inHunk { h with
              lines := h.lines ++
                [⟨"context", some h.old_lineno, some h.new_lineno, content⟩],
              old_lineno := h.old_lineno + 1,
              new_lineno := h.new_lineno + 1 })
          | none => none
        else if l == "\\ No newline at end of file" then some (f, .inHunk h)
        else hdrStep (closeHunk f h) l

/-- Process one line of input. -/
def stepLine (st : PState) (l : String) : Option PState :=
  if strStarts l "diff --git " then
    let files :=
      match st.cur with
      | some (f, m) => st.files ++ [finalizeFile (closeMode f m)]
      | none => st.files
    match parseDiffGitHeader l with
    | none => none
    | some (oldRaw, newRaw) =>
      some ⟨files, some (⟨oldRaw, newRaw, .modified, none, false, []⟩, .hdr)⟩
  else
    match st.cur with
    | none => some st
    | some (f, m) =>
      match m with
      | .hdr => (hdrStep f l).map fun fm => ⟨st.files, some fm⟩
      | .skipBin => some ⟨st.files, some (f, .skipBin)⟩
      | .afterDash =>
        if strStarts l "+++ " then some ⟨st.files, some (f, .hdr)⟩
        else (hdrStep f l).map fun fm => ⟨st.files, some fm⟩
      | .inHunk h => (hunkStep f h l).map fun fm => ⟨st.files, some fm⟩

def runLines : PState → List String → Option PState
  | st, [] => some st
  | st, l :: rest =>
    match stepLine st l with
    | none => none
    | some st' => runLines st' rest

/-- Flush the trailing file at end of input. -/
def finishParse (st : PState) : List FileDiff :=
  match st.cur with
  | some (f, m) => st.files ++ [finalizeFile (closeMode f m)]
  | none => st.files

def parseLines (ls : List String) : Option (List FileDiff) :=
  (runLines ⟨[], none⟩ ls).map finishParse

/-- `parse_unified_diff` (git_ops.rs lines 192-368). -/
def parseUnifiedDiff (s : String) : Option (List FileDiff) :=
  parseLines (rustLines s)

/-- Total count of hunk lines of a given kind in a hunk list. -/
def countKind (k : String) (hs : List DiffHunk) : Nat :=
  (hs.map fun h => (h.lines.filter fun ln => ln.kind = k).length).sum

/-- The claimed per-line shape: an `add` line has no old and some new line
number, a `delete` line the dual, a `context` line both. -/
def lineOK (ln : DiffLine) : Prop :=
  (ln.kind = "add" → ln.old_lineno = none ∧ ln.new_lineno.isSome = true)
  ∧ (ln.kind = "delete" → ln.old_lineno.isSome = true ∧ ln.new_lineno = none)
  ∧ (ln.kind = "context" →
      ln.old_lineno.isSome = true ∧ ln.new_lineno.isSome = true)

def hunksOK (hs : List DiffHunk) : Prop :=
  ∀ h ∈ hs, ∀ ln ∈ h.lines, lineOK ln

/-- The claimed per-file invariants of a finished `FileDiff`. -/
def fdInv (fd : FileDiff) : Prop :=
  fd.additions = countKind "add" fd.hunks
  ∧ fd.deletions = countKind "delete" fd.hunks
  ∧ hunksOK fd.hunks

/-- A binary-marker line of a file block: a `Binary files …` line or the
start of a `GIT binary patch` section. -/
def isMarker (l : String) : Prop :=
  strStarts l "Binary files " = true ∨ strStarts l "GIT binary patch" = true

/-- Spec scenario 4: a unified diff with a rename and one added line. -/
def sampleRenameInput : String :=
  "diff --git a/old.rs b/new.rs\nrename from old.rs\nrename to new.rs\n@@ -1,1 +1,2 @@\n fn x(){}\n+fn y(){}"

/-- The `FileDiff` the parser produces for `sampleRenameInput`. -/
def sampleRenameDiff : FileDiff :=
  ⟨"new.rs", some "old.rs", .renamed, false,
    [⟨1, 1, 1, 2, "@@ -1,1 +1,2 @@",
      [⟨"context", some 1, some 1, "fn x(){}"⟩,
       ⟨"add", none, some 2, "fn y(){}"⟩]⟩], 1, 0⟩

/-- Parser-state invariant: finished files satisfy `fdInv`, and every hunk
line accumulated so far satisfies `lineOK`. -/
def stOK (st : PState) : Prop :=
  (∀ fd ∈ st.files, fdInv fd)
  ∧ ∀ f m, st.cur = some (f, m) →
      hunksOK f.hunks ∧ ∀ hc, m = .inHunk hc → ∀ ln ∈ hc.lines, lineOK ln

/-! ## Status aggregation (`git_ops.rs::compute_status`)

The outputs of the git subprocesses are inputs of the embedding. -/

structure FileChange where
  path : String
  old_path : Option String
  status : FileStatus
  additions : Nat
  deletions : Nat
  binary : Bool
deriving DecidableEq, Repr

structure WorktreeStatus where
  workspace_id : String
  base_branch : String
  head_sha : String
  base_sha : String
  ahead : Nat
  behind : Nat
  files_changed : Nat
  total_additions : Nat
  total_deletions : Nat
  files : List FileChange
  has_conflicts : Bool
  conflict_files : List String
deriving DecidableEq, Repr

/-- `parse_status_letter` (git_ops.rs lines 150-159). -/
def parseStatusLetter (letter : String) : FileStatus :=
  if letter == "A" then .added
  else if letter == "D" then .deleted
  else if letter == "M" then .modified
  else if strStarts letter "R" then .renamed
  else if strStarts letter "C" then .copied
  else .modified

/-- Rust slice `&s[a..b]`; `none` models the panics (reversed range or
out-of-range end). -/
def sliceBetween (s : String) (a b : Nat) : Option String :=
  if a ≤ b ∧ b ≤ s.toList.length then some (String.mk ((s.toList.take b).drop a))
  else none

/-- The plain `old => new` handling at the end of `resolve_arrow_path`
(git_ops.rs lines 574-578). -/
def resolveArrowSimple (path : String) : Option String :=
  match splitOnce path " => " with
  | some (_, nw) => some nw
  | none => some path

/-- `resolve_arrow_path` (git_ops.rs lines 562-579); `none` = panic
(reachable: a `\x7d` before the `\x7b` makes the inner slice reversed). -/
def resolveArrowPath (path : String) : Option String :=
  match findSub path "\x7b", findSub path "\x7d" with
  | some bOpen, some bClose =>
    match sliceTo path bOpen, sliceFrom path (bClose + 1),
        sliceBetween path (bOpen + 1) bClose with
    | some pre, some suf, some inner =>
      match splitOnce inner " => " with
      | some (_, nw) => some (pre ++ nw ++ suf)
      | none => resolveArrowSimple path
    | _, _, _ => none
  | _, _ => resolveArrowSimple path

/-- Remove consecutive duplicates (Rust `Vec::dedup`). -/
def dedupAdjacent : List String → List String
  | [] => []
  | [a] => [a]
  | a :: b :: r =>
    if a == b then dedupAdjacent (b :: r) else a :: dedupAdjacent (b :: r)

/-- `deduplicate` (git_ops.rs lines 581-585): sort, then drop consecutive
duplicates.  A comparison sort on a total order is extensionally unique, so
insertion sort stands in for `Vec::sort`. -/
def deduplicate (v : List String) : List String :=
  dedupAdjacent (List.insertionSort (· ≤ ·) v)

/-- The `--name-status` map construction (git_ops.rs lines 458-483). -/
def buildStatusMap (ls : List String) : String → Option (FileStatus × Option String) :=
  ls.foldl
    (fun m line =>
      match strSplitOnChar '\t' line with
      | [statusLetter, path] =>
        fun x => if x == path then some (parseStatusLetter statusLetter, none) else m x
      | [statusLetter, old, newPath] =>
        fun x =>
          if x == newPath then some (parseStatusLetter statusLetter, some old) else m x
      | _ => m)
    fun _ => none

def mapRemove (m : String → Option (FileStatus × Option String)) (k : String) :
    String → Option (FileStatus × Option String) :=
  fun x => if x == k then none else m x

/-- The `--numstat` loop (git_ops.rs lines 486-532): builds the file list and
the running totals; `none` = panic.  Lines with fewer than three
tab-separated fields are skipped. -/
def processNumstat (m : String → Option (FileStatus × Option String)) :
    List String → Option (List FileChange × Nat × Nat)
  | [] => some ([], 0, 0)
  | line :: rest =>
    match strSplitOnChar '\t' line with
    | p0 :: p1 :: p2 :: restp =>
      let binary := p0 == "-" && p1 == "-"
      let additions := (parseU32 p0).getD 0
      let deletions := (parseU32 p1).getD 0
      let path :=
        match restp with
        | p3 :: _ => p3
        | [] => p2
      match (if strContains path " => " then resolveArrowPath path else some path) with
      | none => none
      | some resolved =>
        let (status, old_path) := (m resolved).getD (.modified, none)
        match processNumstat (mapRemove m resolved) rest with
        | none => none
        | some (fcs, ta, td) =>
          some (⟨resolved, old_path, status, additions, deletions, binary⟩ :: fcs,
            additions + ta, deletions + td)
    | _ => processNumstat m rest

/-- Conflict collection (git_ops.rs lines 535-543). -/
def conflictFilesOf (lsFilesOut : String) : List String :=
  deduplicate ((rustLines lsFilesOut).filterMap fun line => (strSplitOnChar '\t' line).get? 1)

/-- `compute_status` (git_ops.rs lines 426-560) as a function of the git
subprocess outputs; `none` = panic. -/
def computeStatus (workspaceId baseBranch mergeBaseOut headOut revListOut
    numstatOut nameStatusOut lsFilesOut : String) : Option WorktreeStatus :=
  let baseSha := rustTrim mergeBaseOut
  let headSha := rustTrim headOut
  let counts := strSplitOnChar '\t' (rustTrim revListOut)
  let behind := ((counts.get? 0).bind parseU32).getD 0
  let ahead := ((counts.get? 1).bind parseU32).getD 0
  let m := buildStatusMap (rustLines nameStatusOut)
  match processNumstat m (rustLines numstatOut) with
  | none => none
  | some (files, totalAdditions, totalDeletions) =>
    let conflictFiles := conflictFilesOf lsFilesOut
    let hasConflicts := !conflictFiles.isEmpty
    some ⟨workspaceId, baseBranch, headSha, baseSha, ahead, behind,
      files.length, totalAdditions, totalDeletions, files, hasConflicts,
      conflictFiles⟩

/-! ### Lemmas about the primitives -/

theorem strStarts_length_le {s p : String} (h : strStarts s p = true) :
    p.toList.length ≤ s.toList.length := by
  have := (List.isPrefixOf_iff_prefix.mp h).length_le
  simpa using this

theorem dropPre_isSome_of_strStarts {s p : String} (h : strStarts s p = true) :
    (dropPre p s).isSome = true := by
  simp [dropPre, h]

theorem findSubAux_bound (sub : List Char) :
    ∀ (l : List Char) (i j : Nat), findSubAux sub l i = some j →
      i ≤ j ∧ j - i + sub.length ≤ l.length := by
  intro l
  induction l with
  | nil =>
    intro i j h
    by_cases hp : List.isPrefixOf sub ([] : List Char) = true
    · have hsub : sub = [] := by
        cases sub with
        | nil => rfl
        | cons a as => simp [List.isPrefixOf] at hp
      simp [findSubAux, hp] at h
      subst h
      simp [hsub]
    · simp [findSubAux, hp] at h
  | cons c cs ih =>
    intro i j h
    by_cases hp : List.isPrefixOf sub (c :: cs) = true
    · simp [findSubAux, hp] at h
      subst h
      have := (List.isPrefixOf_iff_prefix.mp hp).length_le
      simp at this ⊢
      omega
    · simp [findSubAux, hp] at h
      have := ih (i + 1) j h
      simp at this ⊢
      omega

theorem findSub_bound {s sub : String} {i : Nat} (h : findSub s sub = some i) :
    i + sub.toList.length ≤ s.toList.length := by
  have := findSubAux_bound sub.toList s.toList 0 i h
  omega

theorem toList_length (s : String) : s.toList.length = s.length := rfl

theorem sliceTo_isSome {s : String} {i : Nat} (h : i ≤ s.toList.length) :
    (sliceTo s i).isSome = true := by
  rw [toList_length] at h
  simp [sliceTo, h]

theorem sliceFrom_isSome {s : String} {i : Nat} (h : i ≤ s.toList.length) :
    (sliceFrom s i).isSome = true := by
  rw [toList_length] at h
  simp [sliceFrom, h]

/-- Two prefixes whose first characters differ cannot both hold. -/
theorem not_isPrefixOf_of_head_ne {l : List Char} {c d : Char} {cs ds : List Char}
    (hcd : c ≠ d) (hp : List.isPrefixOf (c :: cs) l = true) :
    List.isPrefixOf (d :: ds) l = false := by
  cases l with
  | nil => simp [List.isPrefixOf] at hp
  | cons a as =>
    simp [List.isPrefixOf] at hp ⊢
    intro hda
    exact absurd (hp.1.trans hda.symm) hcd

/-- A line starting with `p` does not start with `q` when the first
characters of `p` and `q` differ. -/
theorem strStarts_disjoint {l p q : String}
    (hne : p.toList.head? ≠ q.toList.head? ∧ p.toList ≠ [] ∧ q.toList ≠ [])
    (h : strStarts l p = true) : strStarts l q = false := by
  obtain ⟨hh, hp, hq⟩ := hne
  unfold strStarts at h ⊢
  cases hpl : p.toList with
  | nil => exact absurd hpl hp
  | cons c cs =>
    cases hql : q.toList with
    | nil => exact absurd hql hq
    | cons d ds =>
      rw [hpl] at h
      refine not_isPrefixOf_of_head_ne ?_ h
      rw [hpl, hql] at hh
      intro hcd
      exact hh (by simp [hcd])

theorem dropPre_eq_none {l q : String} (h : strStarts l q = false) :
    dropPre q l = none := by
  simp [dropPre, h]

theorem strStarts_nonempty {l p : String} (hp : p.toList ≠ [])
    (h : strStarts l p = true) : l.toList ≠ [] := by
  intro hl
  unfold strStarts at h
  rw [hl] at h
  cases hpl : p.toList with
  | nil => exact absurd hpl hp
  | cons c cs => rw [hpl] at h; simp [List.isPrefixOf] at h

/-! ### C10: the diff parser never panics -/

theorem parseHunkHeader_isSome (s : String) : (parseHunkHeader s).isSome = true := by
  cases hdp : dropPre "@@ " s with
  | none => simp [parseHunkHeader, hdp]
  | some rest =>
    cases hf : findSub rest " @@" with
    | none => simp [parseHunkHeader, hdp, hf]
    | some atEnd =>
      have hle : atEnd ≤ rest.toList.length := by
        have := findSub_bound hf
        omega
      cases hst : sliceTo rest atEnd with
      | none =>
        have := sliceTo_isSome hle
        rw [hst] at this
        simp at this
      | some rangePart =>
        by_cases hlen : (rustSplitWhitespace rangePart).length < 2
        · simp [parseHunkHeader, hdp, hf, hst, hlen]
        · cases hp0 : (rustSplitWhitespace rangePart)[0]? with
          | none =>
            rw [List.getElem?_eq_getElem (by omega)] at hp0
            simp at hp0
          | some p0 =>
            cases hp1 : (rustSplitWhitespace rangePart)[1]? with
            | none =>
              rw [List.getElem?_eq_getElem (by omega)] at hp1
              simp at hp1
            | some p1 =>
              cases hm : dropPre "-" p0 <;> cases hpp : dropPre "+" p1 <;>
                simp [parseHunkHeader, hdp, hf, hst, hlen, hp0, hp1, hm, hpp]

theorem parseDiffGitFallback_isSome (rest : String) :
    (parseDiffGitHeader.parseDiffGitFallback rest).isSome = true := by
  unfold parseDiffGitHeader.parseDiffGitFallback
  unfold rustSplitN2
  cases hf : findSub rest (String.mk [' ']) <;> simp

theorem parseDiffGitHeader_isSome (s : String) :
    (parseDiffGitHeader s).isSome = true := by
  cases hda : dropPre "a/" ((dropPre "diff --git " s).getD s) with
  | none => simp [parseDiffGitHeader, hda, parseDiffGitFallback_isSome]
  | some aRest =>
    cases hf : findSub aRest " b/" with
    | none => simp [parseDiffGitHeader, hda, hf, parseDiffGitFallback_isSome]
    | some bIdx =>
      have hb := findSub_bound hf
      have hlen3 : (" b/" : String).toList.length = 3 := rfl
      have h2 : bIdx + 3 ≤ aRest.toList.length := by omega
      have h1 : bIdx ≤ aRest.toList.length := by omega
      cases hst : sliceTo aRest bIdx with
      | none =>
        have := sliceTo_isSome h1
        rw [hst] at this
        simp at this
      | some old =>
        cases hsf : sliceFrom aRest (bIdx + 3) with
        | none =>
          have := sliceFrom_isSome h2
          rw [hsf] at this
          simp at this
        | some nw => simp [parseDiffGitHeader, hda, hf, hst, hsf]

theorem hdrStep_isSome (f : FileCtx) (l : String) : (hdrStep f l).isSome = true := by
  by_cases h1 : strStarts l "new file mode" = true
  · simp [hdrStep, h1]
  by_cases h2 : strStarts l "deleted file mode" = true
  · simp [hdrStep, h1, h2]
  by_cases h3 : strStarts l "rename from " = true
  · simp [hdrStep, h1, h2, h3, dropPre]
  by_cases h4 : strStarts l "rename to " = true
  · simp [hdrStep, h1, h2, h3, h4]
  by_cases h5 : strStarts l "copy from " = true
  · simp [hdrStep, h1, h2, h3, h4, h5, dropPre]
  by_cases h6 : strStarts l "copy to " = true
  · simp [hdrStep, h1, h2, h3, h4, h5, h6]
  by_cases h7 : (strStarts l "similarity index" || strStarts l "dissimilarity index"
      || strStarts l "index " || strStarts l "old mode"
      || strStarts l "new mode") = true
  · simp [hdrStep, h1, h2, h3, h4, h5, h6, h7]
  by_cases h8 : (l == "Binary files differ" || strStarts l "Binary files "
      || strContains l "Binary files") = true
  · simp [hdrStep, h1, h2, h3, h4, h5, h6, h7, h8]
  by_cases h9 : strStarts l "GIT binary patch" = true
  · simp [hdrStep, h1, h2, h3, h4, h5, h6, h7, h8, h9]
  by_cases h10 : strStarts l "--- " = true
  · simp [hdrStep, h1, h2, h3, h4, h5, h6, h7, h8, h9, h10]
  by_cases h11 : strStarts l "@@ " = true
  · cases hph : parseHunkHeader l with
    | none =>
      have := parseHunkHeader_isSome l
      rw [hph] at this
      simp at this
    | some parsed =>
      simp [hdrStep, h1, h2, h3, h4, h5, h6, h7, h8, h9, h10, h11, hph]
  · simp [hdrStep, h1, h2, h3, h4, h5, h6, h7, h8, h9, h10, h11]

theorem hunkStep_isSome (f : FileCtx) (h : HunkCtx) (l : String) :
    (hunkStep f h l).isSome = true := by
  by_cases h1 : strStarts l "@@ " = true
  · simpa [hunkStep, h1] using hdrStep_isSome (closeHunk f h) l
  cases hp : dropPre "+" l with
  | some c => simp [hunkStep, h1, hp]
  | none =>
    cases hm : dropPre "-" l with
    | some c => simp [hunkStep, h1, hp, hm]
    | none =>
      by_cases h2 : (strStarts l " " || l == "") = true
      · by_cases h3 : (l == "") = true
        · simp [hunkStep, h1, hp, hm, h2, h3]
        · have hsp : strStarts l " " = true := by
            rcases Bool.or_eq_true_iff.mp h2 with hx | hx
            · exact hx
            · exact absurd hx h3
          have hlen : 1 ≤ l.toList.length := by
            have := strStarts_length_le hsp
            simpa using this
          cases hsf : sliceFrom l 1 with
          | none =>
            have := sliceFrom_isSome hlen
            rw [hsf] at this
            simp at this
          | some c => simp [hunkStep, h1, hp, hm, h2, h3, hsf, hsp]
      · by_cases h4 : (l == "\\ No newline at end of file") = true
        · simp [hunkStep, h1, hp, hm, h2, h4]
        · simpa [hunkStep, h1, hp, hm, h2, h4] using
            hdrStep_isSome (closeHunk f h) l

theorem stepLine_isSome (st : PState) (l : String) :
    (stepLine st l).isSome = true := by
  by_cases h1 : strStarts l "diff --git " = true
  · cases hph : parseDiffGitHeader l with
    | none =>
      have := parseDiffGitHeader_isSome l
      rw [hph] at this
      simp at this
    | some pr => simp [stepLine, h1, hph]
  · cases hc : st.cur with
    | none => simp [stepLine, h1, hc]
    | some fm =>
      obtain ⟨f, m⟩ := fm
      cases m with
      | hdr => simpa [stepLine, h1, hc] using hdrStep_isSome f l
      | skipBin => simp [stepLine, h1, hc]
      | afterDash =>
        by_cases h2 : strStarts l "+++ " = true
        · simp [stepLine, h1, hc, h2]
        · simpa [stepLine, h1, hc, h2] using hdrStep_isSome f l
      | inHunk h => simpa [stepLine, h1, hc] using hunkStep_isSome f h l

theorem runLines_isSome : ∀ (ls : List String) (st : PState),
    (runLines st ls).isSome = true := by
  intro ls
  induction ls with
  | nil =>
    intro st
    rfl
  | cons l rest ih =>
    intro st
    unfold runLines
    cases hs : stepLine st l with
    | none =>
      have := stepLine_isSome st l
      rw [hs] at this
      simp at this
    | some st' => exact ih st'

/-- C10 (confirmed): the unified diff parser and its helpers
`parse_diff_git_header` and `parse_hunk_header` are total: on every input
string — also malformed or adversarial text — they return a result and no
embedded panic (out-of-range slice, `unwrap` of `None`) is reachable. -/
theorem diff_parser_total (s : String) :
    (parseUnifiedDiff s).isSome = true
    ∧ (parseHunkHeader s).isSome = true
    ∧ (parseDiffGitHeader s).isSome = true := by
  refine ⟨?_, parseHunkHeader_isSome s, parseDiffGitHeader_isSome s⟩
  unfold parseUnifiedDiff parseLines
  cases hr : runLines ⟨[], none⟩ (rustLines s) with
  | none =>
    have := runLines_isSome (rustLines s) ⟨[], none⟩
    rw [hr] at this
    simp at this
  | some st => simp

/-! ### C5: line accounting and line-number shape -/

theorem foldl_count_lines (k : String) (ls : List DiffLine) :
    ∀ acc : Nat,
      ls.foldl (fun a ln => if ln.kind = k then a + 1 else a) acc
        = acc + (ls.filter fun ln => ln.kind = k).length := by
  induction ls with
  | nil =>
    intro acc
    simp
  | cons x xs ih =>
    intro acc
    by_cases hx : x.kind = k
    · simp [hx, ih]
      omega
    · simp [hx, ih]

theorem countAdds_eq (hs : List DiffHunk) : countAdds hs = countKind "add" hs := by
  suffices h : ∀ acc, hs.foldl
      (fun acc h => h.lines.foldl
        (fun a ln => if ln.kind = "add" then a + 1 else a) acc) acc
      = acc + countKind "add" hs by
    simpa [countAdds] using h 0
  induction hs with
  | nil =>
    intro acc
    simp [countKind]
  | cons x xs ih =>
    intro acc
    rw [List.foldl_cons, ih, foldl_count_lines]
    simp [countKind]
    omega

theorem countDels_eq (hs : List DiffHunk) : countDels hs = countKind "delete" hs := by
  suffices h : ∀ acc, hs.foldl
      (fun acc h => h.lines.foldl
        (fun a ln => if ln.kind = "delete" then a + 1 else a) acc) acc
      = acc + countKind "delete" hs by
    simpa [countDels] using h 0
  induction hs with
  | nil =>
    intro acc
    simp [countKind]
  | cons x xs ih =>
    intro acc
    rw [List.foldl_cons, ih, foldl_count_lines]
    simp [countKind]
    omega

theorem closeHunk_ok {f : FileCtx} {h : HunkCtx} (hf : hunksOK f.hunks)
    (hl : ∀ ln ∈ h.lines, lineOK ln) : hunksOK (closeHunk f h).hunks := by
  intro hk hmem ln hln
  simp only [closeHunk] at hmem
  rcases List.mem_append.mp hmem with hm | hm
  · exact hf hk hm ln hln
  · have hk2 : hk = ⟨h.old_start, h.old_count, h.new_start, h.new_count,
        h.header, h.lines⟩ := by
      simpa using hm
    subst hk2
    exact hl ln hln

theorem closeMode_ok {f : FileCtx} {m : PMode} (hf : hunksOK f.hunks)
    (hm : ∀ hc, m = .inHunk hc → ∀ ln ∈ hc.lines, lineOK ln) :
    hunksOK (closeMode f m).hunks := by
  cases m with
  | inHunk hc => exact closeHunk_ok hf (hm hc rfl)
  | hdr => exact hf
  | skipBin => exact hf
  | afterDash => exact hf

theorem finalizeFile_inv {f : FileCtx} (hf : hunksOK f.hunks) :
    fdInv (finalizeFile f) := by
  refine ⟨?_, ?_, ?_⟩
  · simp [finalizeFile, fdInv, countAdds_eq]
  · simp [finalizeFile, fdInv, countDels_eq]
  · simpa [finalizeFile] using hf

theorem no_lines_inHunk : ∀ hc : HunkCtx, PMode.hdr = PMode.inHunk hc →
    ∀ ln ∈ hc.lines, lineOK ln := by
  intro hc hm
  cases hm

theorem no_lines_skipBin : ∀ hc : HunkCtx, PMode.skipBin = PMode.inHunk hc →
    ∀ ln ∈ hc.lines, lineOK ln := by
  intro hc hm
  cases hm

theorem no_lines_afterDash : ∀ hc : HunkCtx, PMode.afterDash = PMode.inHunk hc →
    ∀ ln ∈ hc.lines, lineOK ln := by
  intro hc hm
  cases hm

theorem hdrStep_inv {f : FileCtx} {l : String} {f' : FileCtx} {m' : PMode}
    (hf : hunksOK f.hunks) (heq : hdrStep f l = some (f', m')) :
    hunksOK f'.hunks
      ∧ ∀ hc, m' = .inHunk hc → ∀ ln ∈ hc.lines, lineOK ln := by
  by_cases h1 : strStarts l "new file mode" = true
  · simp only [hdrStep, h1, if_true] at heq
    cases heq
    exact ⟨hf, no_lines_inHunk⟩
  by_cases h2 : strStarts l "deleted file mode" = true
  · simp only [hdrStep, h1, h2, if_true, if_false, Bool.false_eq_true] at heq
    cases heq
    exact ⟨hf, no_lines_inHunk⟩
  by_cases h3 : strStarts l "rename from " = true
  · simp only [hdrStep, h1, h2, h3, dropPre, if_true, if_false, Bool.false_eq_true] at heq
    cases heq
    exact ⟨hf, no_lines_inHunk⟩
  by_cases h4 : strStarts l "rename to " = true
  · simp only [hdrStep, h1, h2, h3, h4, if_true, if_false, Bool.false_eq_true] at heq
    cases heq
    exact ⟨hf, no_lines_inHunk⟩
  by_cases h5 : strStarts l "copy from " = true
  · simp only [hdrStep, h1, h2, h3, h4, h5, dropPre, if_true, if_false, Bool.false_eq_true] at heq
    cases heq
    exact ⟨hf, no_lines_inHunk⟩
  by_cases h6 : strStarts l "copy to " = true
  · simp only [hdrStep, h1, h2, h3, h4, h5, h6, if_true, if_false, Bool.false_eq_true] at heq
    cases heq
    exact ⟨hf, no_lines_inHunk⟩
  by_cases h7 : (strStarts l "similarity index" || strStarts l "dissimilarity index"
      || strStarts l "index " || strStarts l "old mode"
      || strStarts l "new mode") = true
  · simp only [hdrStep, h1, h2, h3, h4, h5, h6, h7, if_true, if_false, Bool.false_eq_true] at heq
    cases heq
    exact ⟨hf, no_lines_inHunk⟩
  by_cases h8 : (l == "Binary files differ" || strStarts l "Binary files "
      || strContains l "Binary files") = true
  · simp only [hdrStep, h1, h2, h3, h4, h5, h6, h7, h8, if_true, if_false, Bool.false_eq_true] at heq
    cases heq
    exact ⟨hf, no_lines_inHunk⟩
  by_cases h9 : strStarts l "GIT binary patch" = true
  · simp only [hdrStep, h1, h2, h3, h4, h5, h6, h7, h8, h9, if_true, if_false, Bool.false_eq_true]
      at heq
    cases heq
    exact ⟨hf, no_lines_skipBin⟩
  by_cases h10 : strStarts l "--- " = true
  · simp only [hdrStep, h1, h2, h3, h4, h5, h6, h7, h8, h9, h10, if_true,
      if_false, Bool.false_eq_true] at heq
    cases heq
    exact ⟨hf, no_lines_afterDash⟩
  by_cases h11 : strStarts l "@@ " = true
  · cases hph : parseHunkHeader l with
    | none =>
      simp only [hdrStep, h1, h2, h3, h4, h5, h6, h7, h8, h9, h10, h11, hph,
        if_true, if_false, Bool.false_eq_true] at heq
      cases heq
    | some parsed =>
      simp only [hdrStep, h1, h2, h3, h4, h5, h6, h7, h8, h9, h10, h11, hph,
        if_true, if_false, Bool.false_eq_true] at heq
      cases heq
      refine ⟨hf, ?_⟩
      intro hc hm
      cases hm
      intro ln hln
      simp at hln
  · simp only [hdrStep, h1, h2, h3, h4, h5, h6, h7, h8, h9, h10, h11, if_true,
      if_false, Bool.false_eq_true] at heq
    cases heq
    exact ⟨hf, no_lines_inHunk⟩

theorem hunkStep_inv {f : FileCtx} {h : HunkCtx} {l : String} {f' : FileCtx}
    {m' : PMode} (hf : hunksOK f.hunks)
    (hl : ∀ ln ∈ h.lines, lineOK ln)
    (heq : hunkStep f h l = some (f', m')) :
    hunksOK f'.hunks
      ∧ ∀ hc, m' = .inHunk hc → ∀ ln ∈ hc.lines, lineOK ln := by
  have hext : ∀ (nl : DiffLine), lineOK nl →
      ∀ ln ∈ h.lines ++ [nl], lineOK ln := by
    intro nl hnl ln hln
    rcases List.mem_append.mp hln with hm | hm
    · exact hl ln hm
    · have : ln = nl := by simpa using hm
      subst this
      exact hnl
  by_cases h1 : strStarts l "@@ " = true
  · simp only [hunkStep, h1, if_true] at heq
    exact hdrStep_inv (closeHunk_ok hf hl) heq
  simp only [hunkStep, h1, if_false, Bool.false_eq_true, ite_false] at heq
  cases hp : dropPre "+" l with
  | some c =>
    rw [hp] at heq
    cases heq
    refine ⟨hf, ?_⟩
    intro hc hm
    cases hm
    exact hext _ (by simp [lineOK])
  | none =>
    rw [hp] at heq
    cases hm : dropPre "-" l with
    | some c =>
      rw [hm] at heq
      cases heq
      refine ⟨hf, ?_⟩
      intro hc hmm
      cases hmm
      exact hext _ (by simp [lineOK])
    | none =>
      rw [hm] at heq
      by_cases h2 : (strStarts l " " || l == "") = true
      · simp only [h2, if_true] at heq
        cases hsf : (if l == "" then some "" else sliceFrom l 1) with
        | none =>
          rw [hsf] at heq
          cases heq
        | some c =>
          rw [hsf] at heq
          cases heq
          refine ⟨hf, ?_⟩
          intro hc hmm
          cases hmm
          exact hext _ (by simp [lineOK])
      · simp only [h2, if_false, Bool.false_eq_true, ite_false] at heq
        by_cases h4 : (l == "\\ No newline at end of file") = true
        · simp only [h4, if_true] at heq
          cases heq
          refine ⟨hf, ?_⟩
          intro hc hmm
          cases hmm
          exact hl
        · simp only [h4, if_false, Bool.false_eq_true, ite_false] at heq
          exact hdrStep_inv (closeHunk_ok hf hl) heq

theorem stepLine_inv {st : PState} {l : String} {st' : PState}
    (hst : stOK st) (heq : stepLine st l = some st') : stOK st' := by
  obtain ⟨files, cur⟩ := st
  obtain ⟨hfiles, hcur⟩ := hst
  by_cases hdg : strStarts l "diff --git " = true
  · cases hph : parseDiffGitHeader l with
    | none =>
      simp only [stepLine, hdg, hph, if_true] at heq
      cases heq
    | some pr =>
      obtain ⟨oldRaw, newRaw⟩ := pr
      simp only [stepLine, hdg, hph, if_true] at heq
      cases heq
      refine ⟨?_, ?_⟩
      · intro fd hmem
        cases cur with
        | none =>
          exact hfiles fd hmem
        | some fm =>
          obtain ⟨f, m⟩ := fm
          rcases List.mem_append.mp hmem with hm | hm
          · exact hfiles fd hm
          · have hfd : fd = finalizeFile (closeMode f m) := by
              simpa using hm
            subst hfd
            exact finalizeFile_inv
              (closeMode_ok (hcur f m rfl).1 (hcur f m rfl).2)
      · intro f2 m2 hc2
        cases hc2
        refine ⟨?_, ?_⟩
        · intro hk hmem
          simp at hmem
        · intro hc hm
          cases hm
  · cases cur with
    | none =>
      simp only [stepLine, hdg, if_false, Bool.false_eq_true] at heq
      cases heq
      exact ⟨hfiles, hcur⟩
    | some fm =>
      obtain ⟨f, m⟩ := fm
      obtain ⟨hfOK, hmOK⟩ := hcur f m rfl
      cases m with
      | hdr =>
        cases hh : hdrStep f l with
        | none =>
          simp only [stepLine, hdg, hh, if_false, Bool.false_eq_true,
            Option.map_none'] at heq
          cases heq
        | some fm' =>
          obtain ⟨f', m'⟩ := fm'
          simp only [stepLine, hdg, hh, if_false, Bool.false_eq_true,
            Option.map_some'] at heq
          cases heq
          refine ⟨hfiles, ?_⟩
          intro f2 m2 hc2
          cases hc2
          exact hdrStep_inv hfOK hh
      | skipBin =>
        simp only [stepLine, hdg, if_false, Bool.false_eq_true] at heq
        cases heq
        refine ⟨hfiles, ?_⟩
        intro f2 m2 hc2
        cases hc2
        refine ⟨hfOK, ?_⟩
        intro hcx hm
        cases hm
      | afterDash =>
        by_cases hpp : strStarts l "+++ " = true
        · simp only [stepLine, hdg, hpp, if_true, if_false,
            Bool.false_eq_true] at heq
          cases heq
          refine ⟨hfiles, ?_⟩
          intro f2 m2 hc2
          cases hc2
          refine ⟨hfOK, ?_⟩
          intro hcx hm
          cases hm
        · cases hh : hdrStep f l with
          | none =>
            simp only [stepLine, hdg, hpp, hh, if_false, Bool.false_eq_true,
              Option.map_none'] at heq
            cases heq
          | some fm' =>
            obtain ⟨f', m'⟩ := fm'
            simp only [stepLine, hdg, hpp, hh, if_false, Bool.false_eq_true,
              Option.map_some'] at heq
            cases heq
            refine ⟨hfiles, ?_⟩
            intro f2 m2 hc2
            cases hc2
            exact hdrStep_inv hfOK hh
      | inHunk h =>
        cases hh : hunkStep f h l with
        | none =>
          simp only [stepLine, hdg, hh, if_false, Bool.false_eq_true,
            Option.map_none'] at heq
          cases heq
        | some fm' =>
          obtain ⟨f', m'⟩ := fm'
          simp only [stepLine, hdg, hh, if_false, Bool.false_eq_true,
            Option.map_some'] at heq
          cases heq
          refine ⟨hfiles, ?_⟩
          intro f2 m2 hc2
          cases hc2
          exact hunkStep_inv hfOK (hmOK h rfl) hh

theorem runLines_inv : ∀ (ls : List String) (st : PState), stOK st →
    ∀ st', runLines st ls = some st' → stOK st' := by
  intro ls
  induction ls with
  | nil =>
    intro st hst st' heq
    cases heq
    exact hst
  | cons l rest ih =>
    intro st hst st' heq
    unfold runLines at heq
    cases hs : stepLine st l with
    | none =>
      rw [hs] at heq
      cases heq
    | some st1 =>
      rw [hs] at heq
      exact ih st1 (stepLine_inv hst hs) st' heq

theorem finishParse_inv {st : PState} (hst : stOK st) :
    ∀ fd ∈ finishParse st, fdInv fd := by
  obtain ⟨hfiles, hcur⟩ := hst
  intro fd hmem
  unfold finishParse at hmem
  cases hc : st.cur with
  | none =>
    rw [hc] at hmem
    exact hfiles fd hmem
  | some fm =>
    obtain ⟨f, m⟩ := fm
    rw [hc] at hmem
    rcases List.mem_append.mp hmem with hm | hm
    · exact hfiles fd hm
    · have hfd : fd = finalizeFile (closeMode f m) := by
        simpa using hm
      subst hfd
      exact finalizeFile_inv (closeMode_ok (hcur f m hc).1 (hcur f m hc).2)

/-- C5 (confirmed): every `FileDiff` produced by the unified diff parser, on
any input, has `additions` equal to the number of `add` lines and
`deletions` equal to the number of `delete` lines across its hunks; and in
every hunk an `add` line has `old_lineno = none ∧ new_lineno = some _`, a
`delete` line the dual, and a `context` line both numbers. -/
theorem diff_parser_line_accounting (s : String) (fds : List FileDiff)
    (fd : FileDiff) (hp : parseUnifiedDiff s = some fds) (hmem : fd ∈ fds) :
    fd.additions = countKind "add" fd.hunks
    ∧ fd.deletions = countKind "delete" fd.hunks
    ∧ ∀ h ∈ fd.hunks, ∀ ln ∈ h.lines, lineOK ln := by
  unfold parseUnifiedDiff parseLines at hp
  cases hr : runLines ⟨[], none⟩ (rustLines s) with
  | none =>
    rw [hr] at hp
    cases hp
  | some st =>
    rw [hr] at hp
    have hst : stOK st := by
      refine runLines_inv (rustLines s) ⟨[], none⟩ ⟨?_, ?_⟩ st hr
      · intro fd hm
        simp at hm
      · intro f m hm
        cases hm
    cases hp
    exact finishParse_inv hst fd hmem

theorem diff_parser_line_accounting_witness :
    sampleRenameDiff.additions = countKind "add" sampleRenameDiff.hunks
    ∧ sampleRenameDiff.deletions = countKind "delete" sampleRenameDiff.hunks
    ∧ ∀ h ∈ sampleRenameDiff.hunks, ∀ ln ∈ h.lines, lineOK ln :=
  diff_parser_line_accounting sampleRenameInput [sampleRenameDiff]
    sampleRenameDiff (by decide) (by decide)

/-! ### C7: binary file blocks -/

theorem dropPre_some {p s r : String} (h : dropPre p s = some r) :
    strStarts s p = true := by
  by_cases hc : strStarts s p = true
  · exact hc
  · simp [dropPre, hc] at h

/-- A marker line cannot start with a prefix whose first character differs
from both `B` and `G`. -/
theorem isMarker_not_starts (p : String) {l : String} (hm : isMarker l)
    (hB : ("Binary files " : String).toList.head? ≠ p.toList.head?
      ∧ ("Binary files " : String).toList ≠ [] ∧ p.toList ≠ [])
    (hG : ("GIT binary patch" : String).toList.head? ≠ p.toList.head?
      ∧ ("GIT binary patch" : String).toList ≠ [] ∧ p.toList ≠ []) :
    strStarts l p = false := by
  rcases hm with h | h
  · exact strStarts_disjoint hB h
  · exact strStarts_disjoint hG h

theorem isMarker_ne_empty {l : String} (hm : isMarker l) : (l == "") = false := by
  rcases hm with h | h
  · have := strStarts_nonempty (by decide) h
    simp only [beq_eq_false_iff_ne, ne_eq]
    intro heq
    exact this (by simp [heq])
  · have := strStarts_nonempty (by decide) h
    simp only [beq_eq_false_iff_ne, ne_eq]
    intro heq
    exact this (by simp [heq])

theorem hdrStep_props {f : FileCtx} {l : String} {f' : FileCtx} {m' : PMode}
    (heq : hdrStep f l = some (f', m')) :
    f'.hunks = f.hunks
    ∧ (m' = .skipBin → f'.binary = true)
    ∧ (f.binary = true → f'.binary = true)
    ∧ (isMarker l → f'.binary = true)
    ∧ (strStarts l "@@ " = false → ∀ hc, m' ≠ .inHunk hc) := by
  by_cases h1 : strStarts l "new file mode" = true
  · simp only [hdrStep, h1, if_true] at heq
    cases heq
    refine ⟨rfl, ?_, fun hb => hb, ?_, ?_⟩
    · intro h
      cases h
    · intro hm
      rw [isMarker_not_starts "new file mode" hm (by decide) (by decide)] at h1
      exact absurd h1 (by simp)
    · intro _ hc h
      cases h
  by_cases h2 : strStarts l "deleted file mode" = true
  · simp only [hdrStep, h1, h2, if_true, if_false, Bool.false_eq_true] at heq
    cases heq
    refine ⟨rfl, ?_, fun hb => hb, ?_, ?_⟩
    · intro h
      cases h
    · intro hm
      rw [isMarker_not_starts "deleted file mode" hm (by decide) (by decide)] at h2
      exact absurd h2 (by simp)
    · intro _ hc h
      cases h
  by_cases h3 : strStarts l "rename from " = true
  · simp only [hdrStep, h1, h2, h3, dropPre, if_true, if_false,
      Bool.false_eq_true] at heq
    cases heq
    refine ⟨rfl, ?_, fun hb => hb, ?_, ?_⟩
    · intro h
      cases h
    · intro hm
      rw [isMarker_not_starts "rename from " hm (by decide) (by decide)] at h3
      exact absurd h3 (by simp)
    · intro _ hc h
      cases h
  by_cases h4 : strStarts l "rename to " = true
  · simp only [hdrStep, h1, h2, h3, h4, if_true, if_false,
      Bool.false_eq_true] at heq
    cases heq
    refine ⟨rfl, ?_, fun hb => hb, ?_, ?_⟩
    · intro h
      cases h
    · intro hm
      rw [isMarker_not_starts "rename to " hm (by decide) (by decide)] at h4
      exact absurd h4 (by simp)
    · intro _ hc h
      cases h
  by_cases h5 : strStarts l "copy from " = true
  · simp only [hdrStep, h1, h2, h3, h4, h5, dropPre, if_true, if_false,
      Bool.false_eq_true] at heq
    cases heq
    refine ⟨rfl, ?_, fun hb => hb, ?_, ?_⟩
    · intro h
      cases h
    · intro hm
      rw [isMarker_not_starts "copy from " hm (by decide) (by decide)] at h5
      exact absurd h5 (by simp)
    · intro _ hc h
      cases h
  by_cases h6 : strStarts l "copy to " = true
  · simp only [hdrStep, h1, h2, h3, h4, h5, h6, if_true, if_false,
      Bool.false_eq_true] at heq
    cases heq
    refine ⟨rfl, ?_, fun hb => hb, ?_, ?_⟩
    · intro h
      cases h
    · intro hm
      rw [isMarker_not_starts "copy to " hm (by decide) (by decide)] at h6
      exact absurd h6 (by simp)
    · intro _ hc h
      cases h
  by_cases h7 : (strStarts l "similarity index" || strStarts l "dissimilarity index"
      || strStarts l "index " || strStarts l "old mode"
      || strStarts l "new mode") = true
  · simp only [hdrStep, h1, h2, h3, h4, h5, h6, h7, if_true, if_false,
      Bool.false_eq_true] at heq
    cases heq
    refine ⟨rfl, ?_, fun hb => hb, ?_, ?_⟩
    · intro h
      cases h
    · intro hm
      have c1 := isMarker_not_starts "similarity index" hm
        (by decide) (by decide)
      have c2 := isMarker_not_starts "dissimilarity index" hm
        (by decide) (by decide)
      have c3 := isMarker_not_starts "index " hm (by decide) (by decide)
      have c4 := isMarker_not_starts "old mode" hm (by decide) (by decide)
      have c5 := isMarker_not_starts "new mode" hm (by decide) (by decide)
      rw [c1, c2, c3, c4, c5] at h7
      exact absurd h7 (by simp)
    · intro _ hc h
      cases h
  by_cases h8 : (l == "Binary files differ" || strStarts l "Binary files "
      || strContains l "Binary files") = true
  · simp only [hdrStep, h1, h2, h3, h4, h5, h6, h7, h8, if_true, if_false,
      Bool.false_eq_true] at heq
    cases heq
    refine ⟨rfl, fun _ => rfl, fun _ => rfl, fun _ => rfl, ?_⟩
    intro _ hc h
    cases h
  by_cases h9 : strStarts l "GIT binary patch" = true
  · simp only [hdrStep, h1, h2, h3, h4, h5, h6, h7, h8, h9, if_true, if_false,
      Bool.false_eq_true] at heq
    cases heq
    refine ⟨rfl, fun _ => rfl, fun _ => rfl, fun _ => rfl, ?_⟩
    intro _ hc h
    cases h
  by_cases h10 : strStarts l "--- " = true
  · simp only [hdrStep, h1, h2, h3, h4, h5, h6, h7, h8, h9, h10, if_true,
      if_false, Bool.false_eq_true] at heq
    cases heq
    refine ⟨rfl, ?_, fun hb => hb, ?_, ?_⟩
    · intro h
      cases h
    · intro hm
      rw [isMarker_not_starts "--- " hm (by decide) (by decide)] at h10
      exact absurd h10 (by simp)
    · intro _ hc h
      cases h
  by_cases h11 : strStarts l "@@ " = true
  · cases hph : parseHunkHeader l with
    | none =>
      simp only [hdrStep, h1, h2, h3, h4, h5, h6, h7, h8, h9, h10, h11, hph,
        if_true, if_false, Bool.false_eq_true] at heq
      cases heq
    | some parsed =>
      simp only [hdrStep, h1, h2, h3, h4, h5, h6, h7, h8, h9, h10, h11, hph,
        if_true, if_false, Bool.false_eq_true] at heq
      cases heq
      refine ⟨rfl, ?_, fun hb => hb, ?_, ?_⟩
      · intro h
        cases h
      · intro hm
        rw [isMarker_not_starts "@@ " hm (by decide) (by decide)] at h11
        exact absurd h11 (by simp)
      · intro hat hc h
        exact absurd h11 (by simp [hat])
  · simp only [hdrStep, h1, h2, h3, h4, h5, h6, h7, h8, h9, h10, h11, if_true,
      if_false, Bool.false_eq_true] at heq
    cases heq
    refine ⟨rfl, ?_, fun hb => hb, ?_, ?_⟩
    · intro h
      cases h
    · intro hm
      rcases hm with h | h
      · exact absurd (by simp [h] : (l == "Binary files differ"
          || strStarts l "Binary files " || strContains l "Binary files")
            = true) h8
      · exact absurd h h9
    · intro _ hc h
      cases h

theorem hunkStep_props {f : FileCtx} {h : HunkCtx} {l : String} {f' : FileCtx}
    {m' : PMode} (heq : hunkStep f h l = some (f', m')) :
    (m' = .skipBin → f'.binary = true)
    ∧ (f.binary = true → f'.binary = true)
    ∧ (isMarker l → f'.binary = true) := by
  by_cases h1 : strStarts l "@@ " = true
  · simp only [hunkStep, h1, if_true] at heq
    obtain ⟨_, hsb, hmono, hmark, _⟩ := hdrStep_props heq
    exact ⟨hsb, fun hb => hmono hb, hmark⟩
  simp only [hunkStep, h1, if_false, Bool.false_eq_true, ite_false] at heq
  cases hp : dropPre "+" l with
  | some c =>
    rw [hp] at heq
    cases heq
    refine ⟨?_, fun hb => hb, ?_⟩
    · intro hx
      cases hx
    · intro hm
      have := dropPre_some hp
      rw [isMarker_not_starts "+" hm (by decide) (by decide)] at this
      exact absurd this (by simp)
  | none =>
    rw [hp] at heq
    cases hm2 : dropPre "-" l with
    | some c =>
      rw [hm2] at heq
      cases heq
      refine ⟨?_, fun hb => hb, ?_⟩
      · intro hx
        cases hx
      · intro hm
        have := dropPre_some hm2
        rw [isMarker_not_starts "-" hm (by decide) (by decide)] at this
        exact absurd this (by simp)
    | none =>
      rw [hm2] at heq
      by_cases h2 : (strStarts l " " || l == "") = true
      · cases hsf : (if l == "" then some "" else sliceFrom l 1) with
        | none =>
          rw [if_pos h2, hsf] at heq
          cases heq
        | some c =>
          rw [if_pos h2, hsf] at heq
          cases heq
          refine ⟨?_, fun hb => hb, ?_⟩
          · intro hx
            cases hx
          · intro hm
            have hsp := isMarker_not_starts " " hm (by decide) (by decide)
            have hne := isMarker_ne_empty hm
            rw [hsp, hne] at h2
            exact absurd h2 (by simp)
      · simp only [h2, if_false, Bool.false_eq_true, ite_false] at heq
        by_cases h4 : (l == "\\ No newline at end of file") = true
        · simp only [h4, if_true] at heq
          cases heq
          refine ⟨?_, fun hb => hb, ?_⟩
          · intro hx
            cases hx
          · intro hm
            have hl : l = "\\ No newline at end of file" := by
              simpa using h4
            rw [hl] at hm
            rcases hm with hx | hx
            · exact absurd hx (by decide)
            · exact absurd hx (by decide)
        · simp only [h4, if_false, Bool.false_eq_true, ite_false] at heq
          obtain ⟨_, hsb, hmono, hmark, _⟩ := hdrStep_props heq
          exact ⟨hsb, fun hb => hmono hb, hmark⟩

theorem stepBinary {files : List FileDiff} {f : FileCtx} {m : PMode} {l : String}
    {st' : PState}
    (hdg : strStarts l "diff --git " = false)
    (hinv : m = .skipBin → f.binary = true)
    (heq : stepLine ⟨files, some (f, m)⟩ l = some st') :
    ∃ f' m', st' = ⟨files, some (f', m')⟩
      ∧ (m' = .skipBin → f'.binary = true)
      ∧ (f.binary = true → f'.binary = true)
      ∧ (isMarker l → f'.binary = true) := by
  have hdg' : ¬ strStarts l "diff --git " = true := by simp [hdg]
  cases m with
  | hdr =>
    cases hh : hdrStep f l with
    | none =>
      simp only [stepLine, hdg', hh, if_false, Bool.false_eq_true,
        Option.map_none'] at heq
      cases heq
    | some fm' =>
      obtain ⟨f', m'⟩ := fm'
      simp only [stepLine, hdg', hh, if_false, Bool.false_eq_true,
        Option.map_some'] at heq
      cases heq
      obtain ⟨_, hsb, hmono, hmark, _⟩ := hdrStep_props hh
      exact ⟨f', m', rfl, hsb, hmono, hmark⟩
  | skipBin =>
    simp only [stepLine, hdg', if_false, Bool.false_eq_true] at heq
    cases heq
    exact ⟨f, .skipBin, rfl, fun _ => hinv rfl, fun hb => hb, fun _ => hinv rfl⟩
  | afterDash =>
    by_cases hpp : strStarts l "+++ " = true
    · simp only [stepLine, hdg', hpp, if_true, if_false,
        Bool.false_eq_true] at heq
      cases heq
      refine ⟨f, .hdr, rfl, ?_, fun hb => hb, ?_⟩
      · intro hx
        cases hx
      · intro hm
        rw [isMarker_not_starts "+++ " hm (by decide) (by decide)] at hpp
        exact absurd hpp (by simp)
    · cases hh : hdrStep f l with
      | none =>
        simp only [stepLine, hdg', hpp, hh, if_false, Bool.false_eq_true,
          Option.map_none'] at heq
        cases heq
      | some fm' =>
        obtain ⟨f', m'⟩ := fm'
        simp only [stepLine, hdg', hpp, hh, if_false, Bool.false_eq_true,
          Option.map_some'] at heq
        cases heq
        obtain ⟨_, hsb, hmono, hmark, _⟩ := hdrStep_props hh
        exact ⟨f', m', rfl, hsb, hmono, hmark⟩
  | inHunk h =>
    cases hh : hunkStep f h l with
    | none =>
      simp only [stepLine, hdg', hh, if_false, Bool.false_eq_true,
        Option.map_none'] at heq
      cases heq
    | some fm' =>
      obtain ⟨f', m'⟩ := fm'
      simp only [stepLine, hdg', hh, if_false, Bool.false_eq_true,
        Option.map_some'] at heq
      cases heq
      obtain ⟨hsb, hmono, hmark⟩ := hunkStep_props hh
      exact ⟨f', m', rfl, hsb, hmono, hmark⟩

theorem stepNoHunks {files : List FileDiff} {f : FileCtx} {m : PMode}
    {l : String} {st' : PState}
    (hdg : strStarts l "diff --git " = false)
    (hat : strStarts l "@@ " = false)
    (hm : ∀ hc, m ≠ PMode.inHunk hc)
    (heq : stepLine ⟨files, some (f, m)⟩ l = some st') :
    ∃ f' m', st' = ⟨files, some (f', m')⟩ ∧ f'.hunks = f.hunks
      ∧ ∀ hc, m' ≠ .inHunk hc := by
  have hdg' : ¬ strStarts l "diff --git " = true := by simp [hdg]
  cases m with
  | hdr =>
    cases hh : hdrStep f l with
    | none =>
      simp only [stepLine, hdg', hh, if_false, Bool.false_eq_true,
        Option.map_none'] at heq
      cases heq
    | some fm' =>
      obtain ⟨f', m'⟩ := fm'
      simp only [stepLine, hdg', hh, if_false, Bool.false_eq_true,
        Option.map_some'] at heq
      cases heq
      obtain ⟨hhunks, _, _, _, hnih⟩ := hdrStep_props hh
      exact ⟨f', m', rfl, hhunks, hnih hat⟩
  | skipBin =>
    simp only [stepLine, hdg', if_false, Bool.false_eq_true] at heq
    cases heq
    refine ⟨f, .skipBin, rfl, rfl, ?_⟩
    intro hc hx
    cases hx
  | afterDash =>
    by_cases hpp : strStarts l "+++ " = true
    · simp only [stepLine, hdg', hpp, if_true, if_false,
        Bool.false_eq_true] at heq
      cases heq
      refine ⟨f, .hdr, rfl, rfl, ?_⟩
      intro hc hx
      cases hx
    · cases hh : hdrStep f l with
      | none =>
        simp only [stepLine, hdg', hpp, hh, if_false, Bool.false_eq_true,
          Option.map_none'] at heq
        cases heq
      | some fm' =>
        obtain ⟨f', m'⟩ := fm'
        simp only [stepLine, hdg', hpp, hh, if_false, Bool.false_eq_true,
          Option.map_some'] at heq
        cases heq
        obtain ⟨hhunks, _, _, _, hnih⟩ := hdrStep_props hh
        exact ⟨f', m', rfl, hhunks, hnih hat⟩
  | inHunk h => exact absurd rfl (hm h)

theorem runBinary : ∀ (bs : List String) (files : List FileDiff) (f : FileCtx)
    (m : PMode) (st' : PState),
    (∀ l ∈ bs, strStarts l "diff --git " = false) →
    (m = .skipBin → f.binary = true) →
    runLines ⟨files, some (f, m)⟩ bs = some st' →
    ∃ f' m', st' = ⟨files, some (f', m')⟩
      ∧ (m' = .skipBin → f'.binary = true)
      ∧ (f.binary = true → f'.binary = true)
      ∧ ((∃ l ∈ bs, isMarker l) → f'.binary = true) := by
  intro bs
  induction bs with
  | nil =>
    intro files f m st' _ hinv heq
    cases heq
    refine ⟨f, m, rfl, hinv, fun hb => hb, ?_⟩
    intro hex
    simp at hex
  | cons l rest ih =>
    intro files f m st' hnodg hinv heq
    unfold runLines at heq
    cases hs : stepLine ⟨files, some (f, m)⟩ l with
    | none =>
      rw [hs] at heq
      cases heq
    | some st1 =>
      rw [hs] at heq
      obtain ⟨f1, m1, rfl, hinv1, hmono1, hmark1⟩ :=
        stepBinary (hnodg l (by simp)) hinv hs
      obtain ⟨f', m', rfl, hinv', hmono', hmark'⟩ :=
        ih files f1 m1 st' (fun x hx => hnodg x (by simp [hx])) hinv1 heq
      refine ⟨f', m', rfl, hinv', fun hb => hmono' (hmono1 hb), ?_⟩
      intro hex
      rcases hex with ⟨x, hx, hmx⟩
      rcases List.mem_cons.mp hx with hx | hx
      · subst hx
        exact hmono' (hmark1 hmx)
      · exact hmark' ⟨x, hx, hmx⟩

theorem runNoHunks : ∀ (bs : List String) (files : List FileDiff) (f : FileCtx)
    (m : PMode) (st' : PState),
    (∀ l ∈ bs, strStarts l "diff --git " = false) →
    (∀ l ∈ bs, strStarts l "@@ " = false) →
    (∀ hc, m ≠ PMode.inHunk hc) →
    runLines ⟨files, some (f, m)⟩ bs = some st' →
    ∃ f' m', st' = ⟨files, some (f', m')⟩ ∧ f'.hunks = f.hunks
      ∧ ∀ hc, m' ≠ .inHunk hc := by
  intro bs
  induction bs with
  | nil =>
    intro files f m st' _ _ hm heq
    cases heq
    exact ⟨f, m, rfl, rfl, hm⟩
  | cons l rest ih =>
    intro files f m st' hnodg hnoat hm heq
    unfold runLines at heq
    cases hs : stepLine ⟨files, some (f, m)⟩ l with
    | none =>
      rw [hs] at heq
      cases heq
    | some st1 =>
      rw [hs] at heq
      obtain ⟨f1, m1, rfl, hhunks1, hm1⟩ :=
        stepNoHunks (hnodg l (by simp)) (hnoat l (by simp)) hm hs
      obtain ⟨f', m', rfl, hhunks', hm'⟩ :=
        ih files f1 m1 st' (fun x hx => hnodg x (by simp [hx]))
          (fun x hx => hnoat x (by simp [hx])) hm1 heq
      exact ⟨f', m', rfl, hhunks'.trans hhunks1, hm'⟩

/-- C7 counterexample: a block carrying a `Binary files … differ` marker and
a hunk: the parser marks the file binary but still collects the hunk, so
`hunks` is not empty. -/
theorem binary_marker_with_hunks :
    (parseUnifiedDiff
        "diff --git a/f b/f\nBinary files a/f and b/f differ\n@@ -1,1 +1,1 @@\n+x").map
      (fun fds => fds.map fun fd => (fd.binary, fd.hunks.length))
      = some [(true, 1)] := by
  decide

/-- C7 (amended): for a single file block, a `Binary files ` line or a
`GIT binary patch` line anywhere in the block makes the resulting
`FileDiff` binary; the hunk list is empty provided additionally that no
line of the block is a hunk header (with hunk headers present the parser
still collects hunks alongside `binary = true`). -/
theorem binary_marker_sets_binary (hdrLine : String) (bs : List String)
    (fds : List FileDiff)
    (hhdr : strStarts hdrLine "diff --git " = true)
    (hnodg : ∀ l ∈ bs, strStarts l "diff --git " = false)
    (hp : parseLines (hdrLine :: bs) = some fds) :
    ((∃ l ∈ bs, isMarker l) → ∀ fd ∈ fds, fd.binary = true)
    ∧ ((∀ l ∈ bs, strStarts l "@@ " = false) → ∀ fd ∈ fds, fd.hunks = []) := by
  unfold parseLines at hp
  rw [show runLines ⟨[], none⟩ (hdrLine :: bs)
      = match stepLine ⟨[], none⟩ hdrLine with
        | none => none
        | some st1 => runLines st1 bs from rfl] at hp
  cases hph : parseDiffGitHeader hdrLine with
  | none =>
    have := parseDiffGitHeader_isSome hdrLine
    rw [hph] at this
    simp at this
  | some pr =>
    obtain ⟨oldRaw, newRaw⟩ := pr
    have hstep : stepLine ⟨[], none⟩ hdrLine
        = some ⟨[], some (⟨oldRaw, newRaw, .modified, none, false, []⟩, .hdr)⟩ := by
      simp only [stepLine, hhdr, hph, if_true]
    rw [hstep] at hp
    dsimp only at hp
    cases hrun : runLines
        ⟨[], some (⟨oldRaw, newRaw, .modified, none, false, []⟩, .hdr)⟩ bs with
    | none =>
      rw [hrun] at hp
      cases hp
    | some st' =>
      rw [hrun] at hp
      cases hp
      constructor
      · intro hex fd hmem
        obtain ⟨f', m', rfl, _, _, hmark⟩ :=
          runBinary bs [] ⟨oldRaw, newRaw, .modified, none, false, []⟩ .hdr st'
            hnodg (by intro h; cases h) hrun
        have hb := hmark hex
        unfold finishParse at hmem
        simp only [List.nil_append] at hmem
        have hfd : fd = finalizeFile (closeMode f' m') := by
          simpa using hmem
        subst hfd
        cases m' with
        | inHunk hc => simpa [finalizeFile, closeMode, closeHunk] using hb
        | hdr => simpa [finalizeFile, closeMode] using hb
        | skipBin => simpa [finalizeFile, closeMode] using hb
        | afterDash => simpa [finalizeFile, closeMode] using hb
      · intro hnoat fd hmem
        obtain ⟨f', m', rfl, hhunks, hnih⟩ :=
          runNoHunks bs [] ⟨oldRaw, newRaw, .modified, none, false, []⟩ .hdr st'
            hnodg hnoat (by intro hc h; cases h) hrun
        unfold finishParse at hmem
        simp only [List.nil_append] at hmem
        have hfd : fd = finalizeFile (closeMode f' m') := by
          simpa using hmem
        subst hfd
        cases m' with
        | inHunk hc => exact absurd rfl (hnih hc)
        | hdr => simpa [finalizeFile, closeMode] using hhunks
        | skipBin => simpa [finalizeFile, closeMode] using hhunks
        | afterDash => simpa [finalizeFile, closeMode] using hhunks

theorem binary_marker_sets_binary_witness :
    ((∃ l ∈ ["GIT binary patch"], isMarker l) →
      ∀ fd ∈ [(⟨"f", none, .modified, true, [], 0, 0⟩ : FileDiff)],
        fd.binary = true)
    ∧ ((∀ l ∈ ["GIT binary patch"], strStarts l "@@ " = false) →
      ∀ fd ∈ [(⟨"f", none, .modified, true, [], 0, 0⟩ : FileDiff)],
        fd.hunks = []) :=
  binary_marker_sets_binary "diff --git a/f b/f" ["GIT binary patch"]
    [⟨"f", none, .modified, true, [], 0, 0⟩] (by decide) (by decide) (by decide)

/-! ### C4: status aggregation invariants -/

theorem dedupAdjacent_subset : ∀ (v : List String), ∀ x ∈ dedupAdjacent v, x ∈ v := by
  intro v
  induction v with
  | nil => simp [dedupAdjacent]
  | cons a w ih =>
    cases w with
    | nil => simp [dedupAdjacent]
    | cons b r =>
      intro x hx
      by_cases hab : (a == b) = true
      · simp only [dedupAdjacent, hab, if_true] at hx
        have := ih x hx
        simp [List.mem_cons] at this ⊢
        tauto
      · simp only [dedupAdjacent, hab, if_false, Bool.false_eq_true,
          ite_false] at hx
        rcases List.mem_cons.mp hx with h | h
        · simp [h]
        · have := ih x h
          simp [List.mem_cons] at this ⊢
          tauto

theorem dedupAdjacent_pairwise : ∀ v : List String,
    v.Pairwise (· ≤ ·) → (dedupAdjacent v).Pairwise (· < ·) := by
  intro v
  induction v with
  | nil =>
    intro _
    simp [dedupAdjacent]
  | cons a w ih =>
    cases w with
    | nil =>
      intro _
      simp [dedupAdjacent]
    | cons b r =>
      intro hp
      by_cases hab : (a == b) = true
      · simp only [dedupAdjacent, hab, if_true]
        exact ih hp.of_cons
      · simp only [dedupAdjacent, hab, if_false, Bool.false_eq_true, ite_false]
        rw [List.pairwise_cons]
        refine ⟨?_, ih hp.of_cons⟩
        intro x hx
        have hxm := dedupAdjacent_subset (b :: r) x hx
        have hale : a ≤ b := List.rel_of_pairwise_cons hp (by simp)
        have hane : a ≠ b := by simpa using hab
        have haltb : a < b := lt_of_le_of_ne hale hane
        rcases List.mem_cons.mp hxm with h | h
        · subst h
          exact haltb
        · exact lt_of_lt_of_le haltb (List.rel_of_pairwise_cons hp.of_cons h)

theorem deduplicate_pairwise (v : List String) :
    (deduplicate v).Pairwise (· < ·) :=
  dedupAdjacent_pairwise _ (List.sorted_insertionSort (· ≤ ·) v)

theorem processNumstat_sums : ∀ (ls : List String)
    (m : String → Option (FileStatus × Option String))
    (fcs : List FileChange) (ta td : Nat),
    processNumstat m ls = some (fcs, ta, td) →
    ta = (fcs.map (fun fc => fc.additions)).sum
      ∧ td = (fcs.map (fun fc => fc.deletions)).sum := by
  intro ls
  induction ls with
  | nil =>
    intro m fcs ta td h
    cases h
    simp
  | cons line rest ih =>
    intro m fcs ta td h
    cases hsp : strSplitOnChar '\t' line with
    | nil =>
      simp only [processNumstat, hsp] at h
      exact ih m fcs ta td h
    | cons p0 t0 =>
      cases t0 with
      | nil =>
        simp only [processNumstat, hsp] at h
        exact ih m fcs ta td h
      | cons p1 t1 =>
        cases t1 with
        | nil =>
          simp only [processNumstat, hsp] at h
          exact ih m fcs ta td h
        | cons p2 restp =>
          cases restp with
          | nil =>
            simp only [processNumstat, hsp] at h
            cases hres : (if strContains p2 " => " then resolveArrowPath p2
                else some p2) with
            | none =>
              rw [hres] at h
              cases h
            | some resolved =>
              rw [hres] at h
              dsimp only at h
              cases hrec : processNumstat (mapRemove m resolved) rest with
              | none =>
                rw [hrec] at h
                cases h
              | some trip =>
                obtain ⟨fcs', ta', td'⟩ := trip
                rw [hrec] at h
                dsimp only at h
                cases h
                obtain ⟨hta, htd⟩ := ih (mapRemove m resolved) fcs' ta' td' hrec
                simp [hta, htd]
          | cons p3 rp =>
            simp only [processNumstat, hsp] at h
            cases hres : (if strContains p3 " => " then resolveArrowPath p3
                else some p3) with
            | none =>
              rw [hres] at h
              cases h
            | some resolved =>
              rw [hres] at h
              dsimp only at h
              cases hrec : processNumstat (mapRemove m resolved) rest with
              | none =>
                rw [hrec] at h
                cases h
              | some trip =>
                obtain ⟨fcs', ta', td'⟩ := trip
                rw [hrec] at h
                dsimp only at h
                cases h
                obtain ⟨hta, htd⟩ := ih (mapRemove m resolved) fcs' ta' td' hrec
                simp [hta, htd]

/-- C4 (confirmed): every `WorktreeStatus` produced by `compute_status`
satisfies `files_changed = len(files)`, the totals are the sums of the
per-file additions and deletions, `has_conflicts` holds iff
`conflict_files` is non-empty, and `conflict_files` is strictly increasing
(sorted and deduplicated). -/
theorem compute_status_invariants (workspaceId baseBranch mergeBaseOut headOut
    revListOut numstatOut nameStatusOut lsFilesOut : String)
    (st : WorktreeStatus)
    (h : computeStatus workspaceId baseBranch mergeBaseOut headOut revListOut
      numstatOut nameStatusOut lsFilesOut = some st) :
    st.files_changed = st.files.length
    ∧ st.total_additions = (st.files.map (fun fc => fc.additions)).sum
    ∧ st.total_deletions = (st.files.map (fun fc => fc.deletions)).sum
    ∧ (st.has_conflicts = true ↔ st.conflict_files ≠ [])
    ∧ st.conflict_files.Pairwise (· < ·) := by
  simp only [computeStatus] at h
  cases hpn : processNumstat (buildStatusMap (rustLines nameStatusOut))
      (rustLines numstatOut) with
  | none =>
    rw [hpn] at h
    cases h
  | some trip =>
    obtain ⟨files, ta, td⟩ := trip
    rw [hpn] at h
    dsimp only at h
    cases h
    obtain ⟨hta, htd⟩ := processNumstat_sums (rustLines numstatOut)
      (buildStatusMap (rustLines nameStatusOut)) files ta td hpn
    refine ⟨rfl, hta, htd, ?_, ?_⟩
    · simp [conflictFilesOf]
    · exact deduplicate_pairwise _

theorem compute_status_invariants_witness :
    (⟨"id", "main", "def", "abc", 2, 1, 1, 3, 1,
        [⟨"a.rs", none, .modified, 3, 1, false⟩], true,
        ["y"]⟩ : WorktreeStatus).files_changed
      = (⟨"id", "main", "def", "abc", 2, 1, 1, 3, 1,
        [⟨"a.rs", none, .modified, 3, 1, false⟩], true,
        ["y"]⟩ : WorktreeStatus).files.length
    ∧ (⟨"id", "main", "def", "abc", 2, 1, 1, 3, 1,
        [⟨"a.rs", none, .modified, 3, 1, false⟩], true,
        ["y"]⟩ : WorktreeStatus).total_additions
      = ((⟨"id", "main", "def", "abc", 2, 1, 1, 3, 1,
        [⟨"a.rs", none, .modified, 3, 1, false⟩], true,
        ["y"]⟩ : WorktreeStatus).files.map (fun fc => fc.additions)).sum
    ∧ (⟨"id", "main", "def", "abc", 2, 1, 1, 3, 1,
        [⟨"a.rs", none, .modified, 3, 1, false⟩], true,
        ["y"]⟩ : WorktreeStatus).total_deletions
      = ((⟨"id", "main", "def", "abc", 2, 1, 1, 3, 1,
        [⟨"a.rs", none, .modified, 3, 1, false⟩], true,
        ["y"]⟩ : WorktreeStatus).files.map (fun fc => fc.deletions)).sum
    ∧ ((⟨"id", "main", "def", "abc", 2, 1, 1, 3, 1,
        [⟨"a.rs", none, .modified, 3, 1, false⟩], true,
        ["y"]⟩ : WorktreeStatus).has_conflicts = true
      ↔ (⟨"id", "main", "def", "abc", 2, 1, 1, 3, 1,
        [⟨"a.rs", none, .modified, 3, 1, false⟩], true,
        ["y"]⟩ : WorktreeStatus).conflict_files ≠ [])
    ∧ (⟨"id", "main", "def", "abc", 2, 1, 1, 3, 1,
        [⟨"a.rs", none, .modified, 3, 1, false⟩], true,
        ["y"]⟩ : WorktreeStatus).conflict_files.Pairwise (· < ·) :=
  compute_status_invariants "id" "main" "abc\n" "def\n" "1\t2\n"
    "3\t1\ta.rs\n" "M\ta.rs\n" "x\ty\n" _ (by decide)

/-! ### C1: the `claude` auto-approval flag -/

/-- C1 counterexample: for agent `claude` with base argv
`["--dangerously-foo"]` (an argument with the substring `dangerously` that is
not the flag itself), the output argv does not contain
`--dangerously-skip-permissions` at all — not exactly once as claimed. -/
theorem claude_skip_flag_suppressed_by_substring_arg :
    ((buildCommand "claude"
        ⟨"claude", ["--dangerously-foo"], fun _ => none, [], none, none⟩
        none).2.count "--dangerously-skip-permissions") ≠ 1 := by
  decide

/-- C1 (amended): for every claude agent configuration and optional model, if
no argument of the argv after model injection contains the substring
`dangerously`, the result contains `--dangerously-skip-permissions` exactly
once (otherwise the argv is returned unchanged and the flag may be absent);
and for agent `claude` with base argv `[]`, model `opus` and model flag
`--model`, the result argv is exactly
`["--model", "opus", "--dangerously-skip-permissions"]`. -/
theorem claude_skip_flag_once_unless_base_mentions_dangerously
    (config : AgentConfig) (model : Option String)
    (h : (injectModel config model).any (fun a => strContains a "dangerously")
      = false) :
    ((buildCommand "claude" config model).2.count
        "--dangerously-skip-permissions") = 1
    ∧ buildCommand "claude"
        ⟨"claude", [], fun _ => none, ["opus", "sonnet", "haiku"],
          some "sonnet", some "--model"⟩ (some "opus")
      = ("claude", ["--model", "opus", "--dangerously-skip-permissions"]) := by
  refine ⟨?_, by decide⟩
  have hres : (buildCommand "claude" config model).2
      = injectModel config model ++ ["--dangerously-skip-permissions"] := by
    simp [buildCommand, perAgentNormalize, h]
  rw [hres, List.count_append]
  have hzero : (injectModel config model).count "--dangerously-skip-permissions"
      = 0 := by
    rw [List.count_eq_zero]
    intro hmem
    rw [List.any_eq_false] at h
    have := h _ hmem
    simp at this
    exact absurd (by decide :
      strContains "--dangerously-skip-permissions" "dangerously" = true) (by
        simp [this])
  rw [hzero]
  decide

theorem claude_skip_flag_once_witness :
    ((buildCommand "claude"
        ⟨"claude", ["--verbose"], fun _ => none, [], none, none⟩ none).2.count
      "--dangerously-skip-permissions") = 1 :=
  (claude_skip_flag_once_unless_base_mentions_dangerously
    ⟨"claude", ["--verbose"], fun _ => none, [], none, none⟩ none (by decide)).1

/-! ### C9: idempotence of `build_command` -/

/-- C9 counterexample: with model `opus` and model flag `--model`, running
`build_command` again on an agent whose base argv is the first output
re-injects `["--model", "opus"]`, so the argv differs from the first
output. -/
theorem build_command_reinjects_model_flag :
    buildCommand "claude"
        ⟨"claude",
          (buildCommand "claude"
            ⟨"claude", [], fun _ => none, [], none, some "--model"⟩
            (some "opus")).2,
          fun _ => none, [], none, some "--model"⟩ (some "opus")
      ≠ buildCommand "claude"
          ⟨"claude", [], fun _ => none, [], none, some "--model"⟩
          (some "opus") := by
  decide

/-- C9 (amended): `build_command` is idempotent when the second invocation
performs no model injection: for every agent name, configuration and
optional first model, running `build_command` with `model = none` on an
agent whose base argv is the first invocation's output argv returns the
first result unchanged. -/
theorem build_command_idempotent_without_model_reinjection
    (name : String) (config : AgentConfig) (model : Option String) :
    buildCommand name { config with args := (buildCommand name config model).2 }
        none
      = buildCommand name config model := by
  have hinj : ∀ cfg : AgentConfig, injectModel cfg none = cfg.args := by
    intro cfg
    cases hm : cfg.model_flag <;> simp [injectModel, hm]
  have hidem : ∀ args : List String,
      perAgentNormalize name (perAgentNormalize name args)
        = perAgentNormalize name args := by
    intro args
    by_cases h1 : name == "claude"
    · by_cases h2 : args.any (fun a => strContains a "dangerously")
      · simp [perAgentNormalize, h1, h2]
      · have hflag :
            strContains "--dangerously-skip-permissions" "dangerously" = true := by
          decide
        have hap : ((args ++ ["--dangerously-skip-permissions"]).any
            (fun a => strContains a "dangerously")) = true := by
          rw [List.any_append]
          simp [hflag]
        simp [perAgentNormalize, h1, h2, hap]
    · by_cases h2 : name == "codex"
      · by_cases h3 : args.isEmpty
        · have hargs : args = [] := by simpa using h3
          subst hargs
          simp [perAgentNormalize, h1, h2]
        · simp [perAgentNormalize, h1, h2, h3]
      · by_cases h3 : name == "gemini"
        · by_cases h4 : args.any (fun a => a == "--yolo" || a == "-y")
          · simp [perAgentNormalize, h1, h2, h3, h4]
          · have hap : ((args ++ ["--yolo"]).any
                (fun a => a == "--yolo" || a == "-y")) = true := by
              rw [List.any_append]
              simp
            simp [perAgentNormalize, h1, h2, h3, h4, hap]
        · simp [perAgentNormalize, h1, h2, h3]
  simp [buildCommand, hinj, hidem]

/-! ### C2: trust-engine content hashes -/

/-- C2 counterexample: when the repo configuration file exists but is empty,
`compute_config_hash` returns `None` even though the file is present, so
`config_hash = None` does not coincide with "the file is missing". -/
theorem trust_config_hash_none_on_empty_file :
    (fun _ : String => some ([] : List Nat)) "repo/.ocestrater/config.json"
        = some []
    ∧ computeConfigHash (fun _ => "h") (fun _ => some []) "repo" = none :=
  ⟨rfl, rfl⟩

/-- C2 (amended): `config_hash` is the hash of the entire bytes of the repo
configuration file whenever that file exists and is non-empty, and is `None`
when the file is missing or empty; `snippets_hash` is the hash of the entire
bytes of the snippets file whenever it exists and is `None` exactly when it
is missing. -/
theorem trust_hash_file_characterization (hash : List Nat → String)
    (fs : String → Option (List Nat)) (repoPath : String) :
    (fs (repoPath ++ "/.ocestrater/config.json") = none →
      computeConfigHash hash fs repoPath = none)
    ∧ (∀ c, fs (repoPath ++ "/.ocestrater/config.json") = some c → c ≠ [] →
        computeConfigHash hash fs repoPath = some (hash c))
    ∧ (fs (repoPath ++ "/.ocestrater/config.json") = some [] →
        computeConfigHash hash fs repoPath = none)
    ∧ (fs (repoPath ++ "/.ocestrater/snippets.json") = none →
        computeSnippetsHash hash fs repoPath = none)
    ∧ (∀ c, fs (repoPath ++ "/.ocestrater/snippets.json") = some c →
        computeSnippetsHash hash fs repoPath = some (hash c)) := by
  refine ⟨?_, ?_, ?_, ?_, ?_⟩
  · intro h
    simp [computeConfigHash, h]
  · intro c h hc
    simp [computeConfigHash, h, hc]
  · intro h
    simp [computeConfigHash, h]
  · intro h
    simp [computeSnippetsHash, h]
  · intro c h
    simp [computeSnippetsHash, h]

theorem trust_hash_file_characterization_witness :
    computeConfigHash (fun _ => "H")
        (fun p => if p == "r/.ocestrater/config.json" then some [1] else none)
        "r"
      = some "H" :=
  (trust_hash_file_characterization (fun _ => "H")
      (fun p => if p == "r/.ocestrater/config.json" then some [1] else none)
      "r").2.1 [1] (by decide) (by decide)

/-! ### C8: per-repo agent resolution -/

theorem lookupLast_from_init (k : String) (ps : List (String × String)) :
    ∀ init : Option String,
      ps.foldl (fun acc p => if p.1 == k then some p.2 else acc) init
        = (lookupLast ps k).elim init some := by
  induction ps with
  | nil =>
    intro init
    simp [lookupLast]
  | cons q qs ih =>
    intro init
    simp only [lookupLast, List.foldl_cons]
    rw [ih, ih]
    by_cases hk : q.1 = k <;> cases hq : lookupLast qs k <;> simp [hk, hq]

theorem envExtend_lookup (ov : List (String × String)) (k : String) :
    ∀ base : String → Option String,
      envExtend base ov k = ((lookupLast ov k).elim (base k) some) := by
  induction ov with
  | nil =>
    intro base
    simp [envExtend, lookupLast]
  | cons p ps ih =>
    intro base
    have hcons : lookupLast (p :: ps) k
        = (lookupLast ps k).elim (if p.1 == k then some p.2 else none) some :=
      lookupLast_from_init k ps _
    simp only [envExtend, List.foldl_cons] at ih ⊢
    rw [ih, hcons]
    by_cases hk : p.1 = k <;> cases hq : lookupLast ps k <;> simp [hk, hq]

/-- C8 (confirmed): `resolve_agent` returns `None` iff the agent is absent
from the global agent map; with a repo override present, argv is the
override's argv when non-empty and the base argv otherwise, the environment
is the base environment with the override entries merged on top (override
wins on key collision), and the remaining fields always come from the base
definition. -/
theorem resolve_agent_override_semantics (store : ConfigStore)
    (repoPath agentName : String) :
    (resolveAgent store repoPath agentName = none
      ↔ store.agents agentName = none)
    ∧ (∀ base repoCfg ov,
        store.agents agentName = some base →
        store.repo_configs repoPath = some repoCfg →
        repoCfg.agent_overrides agentName = some ov →
        ∃ res, resolveAgent store repoPath agentName = some res
          ∧ (ov.args ≠ [] → res.args = ov.args)
          ∧ (ov.args = [] → res.args = base.args)
          ∧ (∀ k, res.env k = ((lookupLast ov.env k).elim (base.env k) some))
          ∧ res.command = base.command
          ∧ res.models = base.models
          ∧ res.default_model = base.default_model
          ∧ res.model_flag = base.model_flag) := by
  constructor
  · cases hb : store.agents agentName with
    | none => simp [resolveAgent, hb]
    | some base =>
      cases hr : store.repo_configs repoPath with
      | none => simp [resolveAgent, hb, hr]
      | some repoCfg =>
        cases ho : repoCfg.agent_overrides agentName
          <;> simp [resolveAgent, hb, hr, ho]
  · intro base repoCfg ov hb hr ho
    refine ⟨⟨base.command, if ov.args.isEmpty then base.args else ov.args,
        envExtend base.env ov.env, base.models, base.default_model,
        base.model_flag⟩,
      by simp only [resolveAgent, hb, hr, ho], ?_, ?_, ?_, rfl, rfl, rfl, rfl⟩
    · intro hne
      simp [hne]
    · intro he
      simp [he]
    · intro k
      exact envExtend_lookup ov.env k base.env

theorem resolve_agent_override_semantics_witness :
    ∃ res,
      resolveAgent
        ⟨fun a =>
          if a == "claude" then
            some ⟨"claude", ["-v"], fun _ => none, [], none, none⟩
          else none,
         fun r =>
          if r == "/repo" then
            some ⟨1, none, none, none, ".worktrees", fun _ => none,
              fun a =>
                if a == "claude" then some ⟨[], [("K", "V")]⟩ else none⟩
          else none⟩
        "/repo" "claude" = some res
      ∧ (([] : List String) ≠ [] → res.args = [])
      ∧ (([] : List String) = [] → res.args = ["-v"])
      ∧ (∀ k, res.env k = ((lookupLast [("K", "V")] k).elim
          ((fun _ => none : String → Option String) k) some))
      ∧ res.command = "claude"
      ∧ res.models = []
      ∧ res.default_model = none
      ∧ res.model_flag = none :=
  (resolve_agent_override_semantics _ "/repo" "claude").2
    ⟨"claude", ["-v"], fun _ => none, [], none, none⟩
    ⟨1, none, none, none, ".worktrees", fun _ => none,
      fun a => if a == "claude" then some ⟨[], [("K", "V")]⟩ else none⟩
    ⟨[], [("K", "V")]⟩ (by simp) (by simp) (by simp)

/-! ### C3: worktree lookup for the rebase strategy -/

/-- C3 counterexample: the branch line is matched by substring containment,
not by naming the branch exactly.  With porcelain output listing only a
worktree on branch `foobar`, looking up branch `foo` returns that worktree's
path although no worktree is checked out on `foo` (the claim requires no
path here). -/
theorem find_worktree_path_substring_match :
    findWorktreePath "worktree /a\nbranch refs/heads/foobar" "foo" = some "/a" := by
  decide

/-- C3 (amended): the lookup scans for the first `branch ` line that contains
`wt_branch` as a substring and returns the register holding the most recent
`worktree <path>` line (reset on blank lines, `none` if empty); when no line
of the output is such a branch line, it returns no path. -/
theorem find_worktree_path_first_containing_branch_line
    (branch bl : String) (pre post : List String) (cur : Option String)
    (hbl : (strStarts bl "branch " && strContains bl branch) = true)
    (hpre : ∀ l ∈ pre, (strStarts l "branch " && strContains l branch) = false) :
    findWorktreeLines branch (pre ++ bl :: post) cur = retainedWorktree cur pre
    ∧ findWorktreeLines branch pre cur = none := by
  induction pre generalizing cur with
  | nil =>
    have hwt : dropPre "worktree " bl = none :=
      dropPre_eq_none
        (strStarts_disjoint (by decide) (Bool.and_eq_true_iff.mp hbl).1)
    refine ⟨?_, rfl⟩
    simp [findWorktreeLines, retainedWorktree, hwt, hbl]
  | cons l pre ih =>
    have hl := hpre l (by simp)
    have hrest : ∀ x ∈ pre, (strStarts x "branch " && strContains x branch)
        = false := fun x hx => hpre x (by simp [hx])
    cases hwt : dropPre "worktree " l with
    | some p =>
      have := ih (some p) hrest
      simpa [findWorktreeLines, retainedWorktree, hwt] using this
    | none =>
      by_cases hee : l = ""
      · have := ih none hrest
        simpa [findWorktreeLines, retainedWorktree, hwt, hl, hee] using this
      · have := ih cur hrest
        simpa [findWorktreeLines, retainedWorktree, hwt, hl, hee] using this

theorem find_worktree_path_first_containing_branch_line_witness :
    findWorktreeLines "feat" (["worktree /w", ""] ++ "branch refs/heads/feat"
        :: ["worktree /z"]) none
      = retainedWorktree none ["worktree /w", ""] :=
  (find_worktree_path_first_containing_branch_line "feat"
    "branch refs/heads/feat" ["worktree /w", ""] ["worktree /z"] none
    (by decide) (by decide)).1

/-! ### C6: atomicity of workspace creation -/

/-- C6 counterexample: when the `git worktree add` process cannot even be
spawned (an io error rather than a non-zero exit), `create` returns the
error but the record inserted with state `Creating` is left in the
registry — the registry is not unchanged. -/
theorem workspace_create_leaks_record_on_spawn_error :
    ((wmCreate
        ⟨some "/repo", true, "aaaaaaaa-1111", true, some "/repo/.worktrees",
          none⟩
        (fun _ => none) "alias" "feat" "claude" ".worktrees").map
      (fun r =>
        ((match r.1 with
          | .error _ => true
          | .ok _ => false),
          ((r.2 "aaaaaaaa-1111").map (fun w => w.state)))))
      = some (true, some WorkspaceState.creating) := by
  decide

/-- C6 (amended): assuming the call reaches the git invocation (valid
canonical paths, `.git` present, directories created, no path escape) on a
fresh id: when `git worktree add` runs and exits unsuccessfully, `create`
returns the error and the registry is unchanged; when it cannot be spawned,
`create` returns an error but the `Creating` record remains; when it
succeeds, `create` returns the record in state `Running` and that record is
in the registry. -/
theorem workspace_create_git_outcomes (env : CreateEnv) (reg : Registry)
    (repoAlias branch agent wtd canonRepo cp shortId : String)
    (hcr : env.canonicalRepo = some canonRepo)
    (hgit : env.gitDirExists = true)
    (hslice : sliceTo env.uuid 8 = some shortId)
    (hmk : env.mkdirOk = true)
    (hcp : env.canonicalParent = some cp)
    (hesc : pathStartsWithComponents
      (pathJoin cp (branch ++ "-" ++ shortId)) canonRepo = true)
    (hfresh : reg env.uuid = none) :
    (env.gitWorktreeAdd = some false →
      ∃ reg2, wmCreate env reg repoAlias branch agent wtd
          = some (.error "git worktree add failed", reg2)
        ∧ ∀ k, reg2 k = reg k)
    ∧ (env.gitWorktreeAdd = none →
      ∃ reg2, wmCreate env reg repoAlias branch agent wtd
          = some (.error "git worktree error", reg2)
        ∧ ∃ w, reg2 env.uuid = some w ∧ w.state = .creating)
    ∧ (env.gitWorktreeAdd = some true →
      ∃ ws reg2, wmCreate env reg repoAlias branch agent wtd
          = some (.ok ws, reg2)
        ∧ ws.state = .running ∧ ws.id = env.uuid ∧ reg2 ws.id = some ws) := by
  refine ⟨?_, ?_, ?_⟩ <;> intro hga
  · have heq : wmCreate env reg repoAlias branch agent wtd
        = some (.error "git worktree add failed",
            regRemove (regInsert reg env.uuid
              ⟨env.uuid, canonRepo, repoAlias, branch,
                pathJoin cp (branch ++ "-" ++ shortId), agent, .creating⟩)
              env.uuid) := by
      simp [wmCreate, hcr, hgit, hslice, hmk, hcp, hesc, hga]
    refine ⟨_, heq, ?_⟩
    intro k
    by_cases hk : k = env.uuid
    · simp [regRemove, regInsert, hk, hfresh]
    · simp [regRemove, regInsert, hk]
  · have heq : wmCreate env reg repoAlias branch agent wtd
        = some (.error "git worktree error",
            regInsert reg env.uuid
              ⟨env.uuid, canonRepo, repoAlias, branch,
                pathJoin cp (branch ++ "-" ++ shortId), agent, .creating⟩) := by
      simp [wmCreate, hcr, hgit, hslice, hmk, hcp, hesc, hga]
    refine ⟨_, heq, ?_⟩
    exact ⟨⟨env.uuid, canonRepo, repoAlias, branch,
      pathJoin cp (branch ++ "-" ++ shortId), agent, .creating⟩,
      by simp [regInsert], rfl⟩
  · have heq : wmCreate env reg repoAlias branch agent wtd
        = some (.ok
            ⟨env.uuid, canonRepo, repoAlias, branch,
              pathJoin cp (branch ++ "-" ++ shortId), agent, .running⟩,
            regInsert
              (regInsert reg env.uuid
                ⟨env.uuid, canonRepo, repoAlias, branch,
                  pathJoin cp (branch ++ "-" ++ shortId), agent, .creating⟩)
              env.uuid
              ⟨env.uuid, canonRepo, repoAlias, branch,
                pathJoin cp (branch ++ "-" ++ shortId), agent, .running⟩) := by
      simp [wmCreate, hcr, hgit, hslice, hmk, hcp, hesc, hga, regInsert]
    exact ⟨_, _, heq, rfl, rfl, by simp [regInsert]⟩

theorem workspace_create_git_outcomes_witness :
    ∃ reg2,
      wmCreate
          ⟨some "/repo", true, "bbbbbbbb-2222", true, some "/repo/.worktrees",
            some false⟩
          (fun _ => none) "alias" "feat" "claude" ".worktrees"
        = some (.error "git worktree add failed", reg2)
      ∧ ∀ k, reg2 k = (fun _ => none : Registry) k :=
  (workspace_create_git_outcomes
    ⟨some "/repo", true, "bbbbbbbb-2222", true, some "/repo/.worktrees",
      some false⟩
    (fun _ => none) "alias" "feat" "claude" ".worktrees" "/repo"
    "/repo/.worktrees" "bbbbbbbb" rfl rfl (by decide) rfl rfl (by decide)
    rfl).1 rfl


end Ocestrater
